import Mathlib

/-
Verification of the Terathon Container Library (TSHash.h/TSHash.cpp and
TSGraph.h/TSGraph.cpp): a shallow embedding of the chained-bucket hash table
and of the directed graph with its breadth-first Predecessor query.

Modelling conventions.
* A stored object is identified by a natural-number id.  The intrusive
  prev/next pointer pairs of a bucket chain are modelled by representing each
  bucket as a Lean list (head = firstBucketElement, last = lastBucketElement);
  a pointer to a node is modelled by the node's position in its list.
* The back-reference owningHashTableBucket is modelled by actual membership in
  a bucket: in every state the C++ code can reach, an element's back-reference
  is the unique bucket whose chain contains it, so the model recovers it by
  search (findBucketIdx below).
* int32 counters are modelled as Int (the scenarios stay far below 2^31);
  the 32-bit hash value is a Nat that is always consumed through the mask
  hashValue &&& (bucketCount - 1), exactly as GetBucket does.
* The doubly linked list collaborator (TSList.h) is not part of the four
  source files.  Modelled from the spec: the linked-list collaborator of
  section 6 provides O(1) tail append, O(1) removal of a referenced node,
  membership test, and splicing; appending a node that is currently a member
  of a list first detaches it from that list (intrusive move), which is the
  behaviour GraphBase::Predecessor relies on when it borrows the container's
  own element list as BFS scratch storage.
-/

set_option linter.unusedSectionVars false

namespace TerathonModel

section HashModel

variable {K : Type} [DecidableEq K]

/-- A hash table element: its identity, its key (GetKey), and the cached
32-bit hash (hashValue, written at insertion and never recomputed). -/
structure HElem (K : Type) where
  id : Nat
  key : K
  hv : Nat
deriving DecidableEq

/-- State of a HashTable: elementCount, bucketCount, resizeLimit and the
bucket table.  Each bucket is the chain from firstBucketElement (list head)
to lastBucketElement (list end). -/
structure Table (K : Type) where
  elementCount : Int
  bucketCount : Nat
  resizeLimit : Int
  buckets : List (List (HElem K))
deriving DecidableEq

/-- GetBucket routing: hashValue & (bucketCount - 1). -/
def getBucketIndex (hv n : Nat) : Nat := hv &&& (n - 1)

/-- HashTableBase::HashTableBase(initialBucketCount, maxAverageDepth):
empty buckets, elementCount 0, resizeLimit = initialBucketCount * maxAverageDepth. -/
def constructHashTable (K : Type) (initialBucketCount maxAverageDepth : Nat) : Table K :=
  { elementCount := 0,
    bucketCount := initialBucketCount,
    resizeLimit := ((initialBucketCount * maxAverageDepth : Nat) : Int),
    buckets := List.replicate initialBucketCount [] }

/-- HashTableBucket::AppendBucketElement on bucket i: link the element at the
chain tail and increment the owning table's elementCount. -/
def appendBucketElement (t : Table K) (i : Nat) (e : HElem K) : Table K :=
  { t with buckets := t.buckets.set i ((t.buckets.getD i []) ++ [e]),
           elementCount := t.elementCount + 1 }

/-- HashTableBucket::InsertBucketElementAfter on bucket i: splice the element
in directly after the node at position pos, incrementing elementCount. -/
def insertBucketElementAfterAt (t : Table K) (i pos : Nat) (e : HElem K) : Table K :=
  { t with buckets := t.buckets.set i
             (((t.buckets.getD i []).take (pos + 1)) ++ e :: ((t.buckets.getD i []).drop (pos + 1))),
           elementCount := t.elementCount + 1 }

/-- HashTableBucket::RemoveBucketElement on bucket i: unlink the node holding
the given element and decrement elementCount. -/
def removeBucketElementAt (t : Table K) (i : Nat) (eid : Nat) : Table K :=
  { t with buckets := t.buckets.set i ((t.buckets.getD i []).eraseP (fun e => e.id == eid)),
           elementCount := t.elementCount - 1 }

/-- The element's owningHashTableBucket back-reference, recovered as the index
of the bucket whose chain contains the element (none when unattached). -/
def findBucketIdx : List (List (HElem K)) → Nat → Option Nat
  | [], _ => none
  | b :: rest, eid =>
      if b.any (fun e => e.id == eid) then some 0
      else (findBucketIdx rest eid).map (fun i => i + 1)

def ownedBucketIdx (t : Table K) (eid : Nat) : Option Nat :=
  findBucketIdx t.buckets eid

/-- HashTable::RemoveHashTableElement: if the element has an owning bucket,
remove it from that bucket; otherwise do nothing. -/
def removeHashTableElement (t : Table K) (eid : Nat) : Table K :=
  match ownedBucketIdx t eid with
  | none => t
  | some i => removeBucketElementAt t i eid

/-- HashTableBase::RemoveAllHashTableElements: every bucket chain is unlinked
and elementCount is reset to zero. -/
def removeAllHashTableElements (t : Table K) : Table K :=
  { t with buckets := t.buckets.map (fun _ => ([] : List (HElem K))), elementCount := 0 }

/-- HashTableBase::PurgeHashTable: every element in every bucket is destroyed;
as table state this leaves empty buckets and a zero count. -/
def purgeHashTable (t : Table K) : Table K :=
  { t with buckets := t.buckets.map (fun _ => ([] : List (HElem K))), elementCount := 0 }

/-- One redistribution step of ResizeBucketTable: append the element to the
new bucket selected by its cached hash masked with (newBucketCount - 1). -/
def redistAppend (n2 : Nat) (nb : List (List (HElem K))) (e : HElem K) : List (List (HElem K)) :=
  nb.set (getBucketIndex e.hv n2) ((nb.getD (getBucketIndex e.hv n2) []) ++ [e])

/-- HashTableBase::ResizeBucketTable: double the bucket count, reset the
count, then walk the old buckets from the last index down to the first and
each chain head to tail, appending every element into the new table by its
cached hash; the resize limit doubles.  The traversal order makes the
redistributed element sequence the flatten of the reversed old bucket list,
and elementCount ends at the number of appended elements (0 plus one
increment per AppendBucketElement). -/
def resizeBucketTable (t : Table K) : Table K :=
  { elementCount := ((t.buckets.reverse.flatten.length : Nat) : Int),
    bucketCount := t.bucketCount * 2,
    resizeLimit := t.resizeLimit * 2,
    buckets := t.buckets.reverse.flatten.foldl (redistAppend (t.bucketCount * 2))
                 (List.replicate (t.bucketCount * 2) []) }

/-- The tail-to-head scan of InsertHashTableElement over one bucket chain,
looking for an element whose key equals the new key: the recursion inspects
the chain tail before the current node, exactly like the walk along the
prevBucketElement pointers, and reports the position of the last (nearest to
tail) element with an equal key. -/
def tailScanEqualKey : List (HElem K) → K → Option Nat
  | [], _ => none
  | e :: rest, k =>
      match tailScanEqualKey rest k with
      | some i => some (i + 1)
      | none => if e.key = k then some 0 else none

/-- HashTable::InsertHashTableElement: detach the element if it is attached,
otherwise resize first when elementCount has reached resizeLimit; then hash
the key, cache the hash, and scan the target bucket from the tail for an
equal key, inserting after the found node or appending at the tail. -/
def insertHashTableElement (hash : K → Nat) (t : Table K) (eid : Nat) (k : K) : Table K :=
  let t1 :=
    match ownedBucketIdx t eid with
    | none => if t.resizeLimit ≤ t.elementCount then resizeBucketTable t else t
    | some i => removeBucketElementAt t i eid
  let e : HElem K := ⟨eid, k, hash k⟩
  let bi := getBucketIndex (hash k) t1.bucketCount
  match tailScanEqualKey (t1.buckets.getD bi []) k with
  | some pos => insertBucketElementAfterAt t1 bi pos e
  | none => appendBucketElement t1 bi e

/-- HashTable::FindHashTableElement: hash the key, pick the bucket, scan the
chain from the head and return the first element with an equal key. -/
def findHashTableElement (hash : K → Nat) (t : Table K) (k : K) : Option (HElem K) :=
  (t.buckets.getD (getBucketIndex (hash k) t.bucketCount) []).find? (fun e => decide (e.key = k))

/-- Insert a sequence of fresh elements; the p-th element inserted receives id
p and carries the p-th key of the list. -/
def insertList (hash : K → Nat) : Table K → Nat → List K → Table K
  | t, _, [] => t
  | t, p, k :: rest => insertList hash (insertHashTableElement hash t p k) (p + 1) rest

/-- A table built by constructing with the given parameters and inserting one
fresh element per key, in order, with ids 0, 1, 2, .... -/
def buildTable (hash : K → Nat) (initialBucketCount maxAverageDepth : Nat) (ks : List K) : Table K :=
  insertList hash (constructHashTable K initialBucketCount maxAverageDepth) 0 ks

/-- The public mutating operations of the hash table. -/
inductive HashOp (K : Type) where
  | insert (eid : Nat) (k : K)
  | remove (eid : Nat)
  | removeAll
  | purge
  | resize

def applyHashOp (hash : K → Nat) (t : Table K) : HashOp K → Table K
  | .insert eid k => insertHashTableElement hash t eid k
  | .remove eid => removeHashTableElement t eid
  | .removeAll => removeAllHashTableElements t
  | .purge => purgeHashTable t
  | .resize => resizeBucketTable t

def runHashOps (hash : K → Nat) (t : Table K) : List (HashOp K) → Table K
  | [] => t
  | op :: rest => runHashOps hash (applyHashOp hash t op) rest

/-- Sum of the sizes of all buckets. -/
def totalSize (t : Table K) : Nat := (t.buckets.map List.length).sum

/-- Number of chain nodes that hold the element with the given id, summed over
every bucket of the table. -/
def idCount (t : Table K) (eid : Nat) : Nat :=
  (t.buckets.map (List.countP (fun e => e.id == eid))).sum

/-- n is a power of two (the constructor asserts this of initialBucketCount). -/
def IsPow2 (n : Nat) : Prop := ∃ m, n = 2 ^ m

/-- Structural well-formedness that every reachable table state enjoys. -/
structure TableWF (t : Table K) : Prop where
  pow2 : IsPow2 t.bucketCount
  len : t.buckets.length = t.bucketCount
  count : t.elementCount = ((totalSize t : Nat) : Int)
  nodupIds : ∀ eid, idCount t eid ≤ 1

/-- All elements with the given key, in chain order of the one bucket that
key-equal elements can inhabit. -/
def keyEntries (hash : K → Nat) (t : Table K) (k : K) : List (HElem K) :=
  (t.buckets.getD (getBucketIndex (hash k) t.bucketCount) []).filter (fun e => decide (e.key = k))

/-- The ids (insertion positions, starting at p) of the occurrences of key k
in an insertion sequence. -/
def keyIdxs (p : Nat) : List K → K → List Nat
  | [], _ => []
  | k0 :: rest, k =>
      if k0 = k then p :: keyIdxs (p + 1) rest k else keyIdxs (p + 1) rest k

/-- Invariant of a table built by inserting fresh elements 0, 1, ..., p-1:
the bucket count is a power of two and matches the table length, every stored
element carries the hash of its key and sits in the bucket its cached hash
routes to, all stored ids are below p, and for every key the bucket the key
routes to lists exactly the elements inserted with that key, in insertion
order (their ids given by the map σ). -/
structure KeyInv (hash : K → Nat) (t : Table K) (p : Nat) (σ : K → List Nat) : Prop where
  pow2 : IsPow2 t.bucketCount
  len : t.buckets.length = t.bucketCount
  resid : ∀ bi, bi < t.buckets.length → ∀ e ∈ t.buckets.getD bi [],
    e.hv = hash e.key ∧ getBucketIndex e.hv t.bucketCount = bi
  fresh : ∀ b ∈ t.buckets, ∀ e ∈ b, e.id < p
  keys : ∀ k, keyEntries hash t k = (σ k).map (fun i => (⟨i, k, hash k⟩ : HElem K))

end HashModel

section GraphModel

/-- A directed graph world: the container's element list (insertion ordered)
and the live relation objects in creation order; a relation is its
(startElement, finishElement) pair.  An element's outgoing relation list is
the creation-ordered sequence of relations starting at it, its incoming list
the creation-ordered sequence of relations finishing at it. -/
structure GraphW where
  elementList : List Nat
  relations : List (Nat × Nat)
deriving DecidableEq

/-- Finish elements of the outgoing relation list of a (walk along
GetFirstOutgoingRelation / GetNextListElement). -/
def outOf (g : GraphW) (a : Nat) : List Nat :=
  (g.relations.filter (fun r => decide (r.1 = a))).map (fun r => r.2)

/-- Start elements of the incoming relation list of a. -/
def inOf (g : GraphW) (a : Nat) : List Nat :=
  (g.relations.filter (fun r => decide (r.2 = a))).map (fun r => r.1)

/-- GraphBase::RemoveGraphElement: purge the incoming relations (destroying
every relation that finishes at the element) and the outgoing relations
(destroying every relation that starts at it), then remove the element node
from the container's element list.  A destroyed relation's list nodes are
unlinked from both endpoint sequences by its destructor, so exactly the
relations with neither endpoint equal to the element survive. -/
def removeGraphElement (g : GraphW) (a : Nat) : GraphW :=
  { elementList := g.elementList.eraseP (fun x => x == a),
    relations := g.relations.filter (fun r => decide (r.1 ≠ a ∧ r.2 ≠ a)) }

/-- The lists manipulated by GraphBase::Predecessor: the container's own
elementList plus the local readyList and visitedList scratch lists.  The log
field is pure instrumentation recording, in order, every element passed to
readyList.AppendListElement (each enqueue operation). -/
structure PredState where
  elems : List Nat
  ready : List Nat
  visited : List Nat
  log : List Nat
deriving DecidableEq

/-- Modelled from the spec: AppendListElement of the section 6 list
collaborator moves the node, detaching it from whichever list currently
holds it before linking it at the target tail.  Here the target is readyList;
the enqueue is recorded in the instrumentation log. -/
def moveToReady (s : PredState) (x : Nat) : PredState :=
  { elems := s.elems.erase x,
    ready := (s.ready.erase x) ++ [x],
    visited := s.visited.erase x,
    log := s.log ++ [x] }

/-- visitedList.AppendListElement(element): move the node to the visited
list's tail. -/
def moveToVisited (s : PredState) (x : Nat) : PredState :=
  { elems := s.elems.erase x,
    ready := s.ready.erase x,
    visited := (s.visited.erase x) ++ [x],
    log := s.log }

/-- elementList.AppendListElement(element): move the node back into the
container's element list (the splice-back loops after the search). -/
def moveToElems (s : PredState) (x : Nat) : PredState :=
  { elems := (s.elems.erase x) ++ [x],
    ready := s.ready.erase x,
    visited := s.visited.erase x,
    log := s.log }

/-- The inner relation loop of Predecessor: walk the dequeued element's
outgoing relations; a finish already in the visited list is skipped, a finish
equal to second ends the whole search with result true (the goto), and any
other finish is appended to the ready list. -/
def scanRelations (second : Nat) : List Nat → PredState → Bool × PredState
  | [], s => (false, s)
  | f :: rest, s =>
      if f ∈ s.visited then scanRelations second rest s
      else if f = second then (true, s)
      else scanRelations second rest (moveToReady s f)

/-- The outer search loop of Predecessor: while the ready list is non-empty,
move its first element to the visited list and scan that element's outgoing
relations.  The fuel argument only bounds the iteration count; predFuel below
always suffices (theorem predLoop_fuel_independent), and an exhausted fuel
returns exactly what an empty ready list returns. -/
def predLoop (out : Nat → List Nat) (second : Nat) : Nat → PredState → Bool × PredState
  | 0, s => (false, s)
  | fuel + 1, s =>
      match s.ready with
      | [] => (false, s)
      | element :: _ =>
          let s1 := moveToVisited s element
          let r2 := scanRelations second (out element) s1
          if r2.1 then (true, r2.2) else predLoop out second fuel r2.2

/-- The first splice-back loop: repeatedly move the first ready element into
the container's element list.  Each step erases the list head, so fuel equal
to the initial length runs the loop to emptiness. -/
def drainReadyFuel : Nat → PredState → PredState
  | 0, s => s
  | fuel + 1, s =>
      match s.ready with
      | [] => s
      | x :: _ => drainReadyFuel fuel (moveToElems s x)

/-- The second splice-back loop, emptying the visited list. -/
def drainVisitedFuel : Nat → PredState → PredState
  | 0, s => s
  | fuel + 1, s =>
      match s.visited with
      | [] => s
      | x :: _ => drainVisitedFuel fuel (moveToElems s x)

/-- Iteration bound for the search loop: every dequeue moves a distinct
element into the visited list, and every element that ever enters the ready
list is first or the finish of some relation, so at most
relations.length + 1 iterations can dequeue. -/
def predFuel (g : GraphW) : Nat := g.relations.length + 1

/-- GraphBase::Predecessor(first, second): seed the ready list with first, run
the breadth-first search, then splice the ready and visited lists back into
the container's element list and return the result together with the final
state. -/
def predecessor (g : GraphW) (first second : Nat) : Bool × PredState :=
  let s0 := moveToReady { elems := g.elementList, ready := [], visited := [], log := [] } first
  let r1 := predLoop (outOf g) second (predFuel g) s0
  let s2 := drainReadyFuel r1.2.ready.length r1.2
  let s3 := drainVisitedFuel s2.visited.length s2
  (r1.1, s3)

/-- The concatenation of every list the Predecessor scratch state holds a
node in; membership conservation is stated about it. -/
def concatState (s : PredState) : List Nat := s.elems ++ s.ready ++ s.visited

end GraphModel

end TerathonModel

namespace TerathonModel

section HashTheorems

variable {K : Type} [DecidableEq K]

omit [DecidableEq K] in
/-- Claim C10: removing an element that is not attached to any bucket is a
no-op: RemoveHashTableElement finds a null owningHashTableBucket and returns
without touching the table, so the whole table state (element count and every
bucket chain) is unchanged and the element stays unattached. -/
theorem removeHashTableElement_unattached_noop (t : Table K) (eid : Nat)
    (h : ownedBucketIdx t eid = none) :
    removeHashTableElement t eid = t := by
  unfold removeHashTableElement
  rw [h]

/-- Witness for C10: removing the unattached element 5 from a table holding
only the element with id 0 (key 7) leaves the table unchanged. -/
theorem removeHashTableElement_unattached_noop_witness :
    removeHashTableElement (buildTable (fun x => x) 2 1 [7]) 5
      = buildTable (fun x => x) 2 1 [7] :=
  removeHashTableElement_unattached_noop (buildTable (fun x => x) 2 1 [7]) 5 (by decide)

/-- Claim C5: with initialBucketCount 4 and maxAverageDepth 2 (resizeLimit 8),
inserting eight fresh elements with the distinct hashes 0..7 leaves two
elements in each of the four buckets; the ninth insertion finds
elementCount = resizeLimit and performs exactly one resize, giving
bucketCount 8 and resizeLimit 16, after which all nine elements are still
found under their original keys. -/
theorem resize_scenario_4_2 :
    ((buildTable (fun k => k) 4 2 [0, 1, 2, 3, 4, 5, 6, 7]).buckets.map List.length
        = [2, 2, 2, 2])
    ∧ (buildTable (fun k => k) 4 2 [0, 1, 2, 3, 4, 5, 6, 7]).bucketCount = 4
    ∧ (buildTable (fun k => k) 4 2 [0, 1, 2, 3, 4, 5, 6, 7]).resizeLimit = 8
    ∧ (buildTable (fun k => k) 4 2 [0, 1, 2, 3, 4, 5, 6, 7, 8]).bucketCount = 8
    ∧ (buildTable (fun k => k) 4 2 [0, 1, 2, 3, 4, 5, 6, 7, 8]).resizeLimit = 16
    ∧ ∀ k ∈ [0, 1, 2, 3, 4, 5, 6, 7, 8],
        findHashTableElement (fun x => x) (buildTable (fun x => x) 4 2 [0, 1, 2, 3, 4, 5, 6, 7, 8]) k
          = some ⟨k, k, k⟩ := by
  decide

end HashTheorems

section GraphTheorems

/-- Claim C2: in the graph with elements 1, 2, 3 and exactly the relations
1 to 2 and 2 to 3, Predecessor(1,3) is true while Predecessor(3,1) and
Predecessor(2,1) are false. -/
theorem predecessor_chain_scenario :
    (predecessor ⟨[1, 2, 3], [(1, 2), (2, 3)]⟩ 1 3).1 = true
    ∧ (predecessor ⟨[1, 2, 3], [(1, 2), (2, 3)]⟩ 3 1).1 = false
    ∧ (predecessor ⟨[1, 2, 3], [(1, 2), (2, 3)]⟩ 2 1).1 = false := by
  decide

/-- Counterexample to claim C3: in the one-element graph with the explicit
self-loop relation 0 to 0 (a cycle path of one relation), Predecessor(0,0)
returns false, not true as the claim states; the same happens for the
two-element cycle 0 to 1, 1 to 0. -/
theorem predecessor_cycle_counterexample :
    (predecessor ⟨[0], [(0, 0)]⟩ 0 0).1 = false
    ∧ (predecessor ⟨[0, 1], [(0, 1), (1, 0)]⟩ 0 0).1 = false := by
  decide

/-- Counterexample to claim C9: in the diamond graph 0 to 1, 0 to 2, 1 to 2,
searching for the absent element 5 executes the ready-list enqueue operation
twice for element 2 (once as a neighbour of 0 and again as a neighbour of 1,
while 2 is still waiting in the ready list), so it is not true that each
element is enqueued at most once. -/
theorem predecessor_enqueue_twice_counterexample :
    ¬ ((predecessor ⟨[0, 1, 2], [(0, 1), (0, 2), (1, 2)]⟩ 0 5).2.log.count 2 ≤ 1) := by
  decide

end GraphTheorems

end TerathonModel

namespace TerathonModel

section InsertPlacement

variable {K : Type} [DecidableEq K]

/-- A failed tail-to-head scan means no element of the chain carries the key. -/
theorem tailScanEqualKey_none {k : K} : ∀ {b : List (HElem K)},
    tailScanEqualKey b k = none → ∀ x ∈ b, x.key ≠ k := by
  intro b
  induction b with
  | nil => simp
  | cons e rest ih =>
      intro h
      cases hscan : tailScanEqualKey rest k with
      | some i => simp [tailScanEqualKey, hscan] at h
      | none =>
          unfold tailScanEqualKey at h
          rw [hscan] at h
          by_cases hek : e.key = k
          · simp [hek] at h
          · intro x hx
            rcases List.mem_cons.mp hx with rfl | hx
            · exact hek
            · exact ih hscan x hx

/-- A successful tail-to-head scan reports the position of the last element
with the key: everything after it in the chain has a different key. -/
theorem tailScanEqualKey_some {k : K} : ∀ {b : List (HElem K)} {i : Nat},
    tailScanEqualKey b k = some i →
    ∃ b1 a b2, b = b1 ++ a :: b2 ∧ b1.length = i ∧ a.key = k ∧ ∀ x ∈ b2, x.key ≠ k := by
  intro b
  induction b with
  | nil => intro i h; cases h
  | cons e rest ih =>
      intro i h
      cases hscan : tailScanEqualKey rest k with
      | some j =>
          unfold tailScanEqualKey at h
          rw [hscan] at h
          have hij : j + 1 = i := by injection h
          obtain ⟨b1, a, b2, hb, hlen, hkey, hclean⟩ := ih hscan
          refine ⟨e :: b1, a, b2, by rw [hb]; rfl, ?_, hkey, hclean⟩
          simp [hlen, hij]
      | none =>
          unfold tailScanEqualKey at h
          rw [hscan] at h
          by_cases hek : e.key = k
          · rw [if_pos hek] at h
            have h0 : (0 : Nat) = i := by injection h
            exact ⟨[], e, rest, rfl, h0, hek, tailScanEqualKey_none hscan⟩
          · rw [if_neg hek] at h
            cases h

/-- Claim C4: InsertHashTableElement scans the target bucket from the tail
toward the head; when an element with an equal key exists, the new element is
spliced in immediately after the tail-nearest such element (everything behind
the splice point has a different key, so same-key entries stay grouped in
insertion order), and when no equal key exists the new element is appended at
the bucket tail. -/
theorem insertHashTableElement_placement (hash : K → Nat) (t : Table K) (eid : Nat) (k : K)
    (h1 : ownedBucketIdx t eid = none) (h2 : t.elementCount < t.resizeLimit) :
    ((∀ x ∈ t.buckets.getD (getBucketIndex (hash k) t.bucketCount) [], x.key ≠ k) ∧
      (insertHashTableElement hash t eid k).buckets
        = t.buckets.set (getBucketIndex (hash k) t.bucketCount)
            ((t.buckets.getD (getBucketIndex (hash k) t.bucketCount) []) ++ [⟨eid, k, hash k⟩]))
    ∨ (∃ b1 a b2,
        t.buckets.getD (getBucketIndex (hash k) t.bucketCount) [] = b1 ++ a :: b2
        ∧ a.key = k ∧ (∀ x ∈ b2, x.key ≠ k)
        ∧ (insertHashTableElement hash t eid k).buckets
            = t.buckets.set (getBucketIndex (hash k) t.bucketCount)
                (b1 ++ a :: (⟨eid, k, hash k⟩ : HElem K) :: b2)) := by
  have hnr : ¬ (t.resizeLimit ≤ t.elementCount) := not_le.mpr h2
  have hunfold : insertHashTableElement hash t eid k
      = match tailScanEqualKey (t.buckets.getD (getBucketIndex (hash k) t.bucketCount) []) k with
        | some pos =>
            insertBucketElementAfterAt t (getBucketIndex (hash k) t.bucketCount) pos ⟨eid, k, hash k⟩
        | none => appendBucketElement t (getBucketIndex (hash k) t.bucketCount) ⟨eid, k, hash k⟩ := by
    unfold insertHashTableElement
    rw [h1, if_neg hnr]
  rw [hunfold]
  cases hscan : tailScanEqualKey (t.buckets.getD (getBucketIndex (hash k) t.bucketCount) []) k with
  | none =>
      left
      exact ⟨tailScanEqualKey_none hscan, rfl⟩
  | some pos =>
      right
      obtain ⟨b1, a, b2, hb, hlen, hkey, hclean⟩ := tailScanEqualKey_some hscan
      refine ⟨b1, a, b2, hb, hkey, hclean, ?_⟩
      have hsplit : (t.buckets.getD (getBucketIndex (hash k) t.bucketCount) [])
          = (b1 ++ [a]) ++ b2 := by rw [hb]; simp
      have hlen1 : (b1 ++ [a]).length = pos + 1 := by simp [hlen]
      show (t.buckets.set (getBucketIndex (hash k) t.bucketCount)
        (((t.buckets.getD (getBucketIndex (hash k) t.bucketCount) []).take (pos + 1))
          ++ (⟨eid, k, hash k⟩ : HElem K)
            :: ((t.buckets.getD (getBucketIndex (hash k) t.bucketCount) []).drop (pos + 1))))
        = t.buckets.set (getBucketIndex (hash k) t.bucketCount)
            (b1 ++ a :: (⟨eid, k, hash k⟩ : HElem K) :: b2)
      rw [hsplit, List.take_left' hlen1, List.drop_left' hlen1]
      simp

end InsertPlacement

section RemoveDestroys

/-- Splitting a countP along a second predicate. -/
theorem countP_split {α : Type} (l : List α) (p q : α → Bool) :
    l.countP p = l.countP (fun x => p x && q x) + l.countP (fun x => p x && !q x) := by
  induction l with
  | nil => simp
  | cons x xs ih =>
      by_cases hp : p x <;> by_cases hq : q x <;>
        simp [List.countP_cons, hp, hq, ih] <;> omega

/-- Claim C7: removing an element from its graph destroys every relation that
has it as an endpoint: afterwards its own outgoing and incoming sequences are
empty, and for every other element the outgoing relation count has dropped by
the number of relations it had into the removed element and the incoming
count by the number of relations from the removed element. -/
theorem removeGraphElement_destroys (g : GraphW) (a : Nat) :
    outOf (removeGraphElement g a) a = []
    ∧ inOf (removeGraphElement g a) a = []
    ∧ ∀ b, b ≠ a →
        (outOf (removeGraphElement g a) b).length
            = (outOf g b).length - g.relations.countP (fun r => decide (r = (b, a)))
        ∧ (inOf (removeGraphElement g a) b).length
            = (inOf g b).length - g.relations.countP (fun r => decide (r = (a, b))) := by
  refine ⟨?_, ?_, ?_⟩
  · simp only [outOf, removeGraphElement, List.filter_filter]
    rw [List.map_eq_nil_iff, List.filter_eq_nil_iff]
    intro r _
    by_cases h1 : r.1 = a <;> by_cases h2 : r.2 = a <;> simp [h1, h2]
  · simp only [inOf, removeGraphElement, List.filter_filter]
    rw [List.map_eq_nil_iff, List.filter_eq_nil_iff]
    intro r _
    by_cases h1 : r.1 = a <;> by_cases h2 : r.2 = a <;> simp [h1, h2]
  · intro b hba
    constructor
    · have hsplit := countP_split g.relations
        (fun r => decide (r.1 = b)) (fun r => decide (r.2 = a))
      have hout : (outOf g b).length = g.relations.countP (fun r => decide (r.1 = b)) := by
        simp [outOf, List.countP_eq_length_filter]
      have hout2 : (outOf (removeGraphElement g a) b).length
          = g.relations.countP (fun r => decide (r.1 = b) && !decide (r.2 = a)) := by
        simp only [outOf, removeGraphElement, List.filter_filter, List.length_map,
          ← List.countP_eq_length_filter]
        refine List.countP_congr ?_
        intro r _
        by_cases h1 : r.1 = b <;> by_cases h2 : r.2 = a <;>
          simp [h1, h2, hba]
      have hpair : g.relations.countP (fun r => decide (r = (b, a)))
          = g.relations.countP (fun r => decide (r.1 = b) && decide (r.2 = a)) := by
        refine List.countP_congr ?_
        intro r _
        simp [Prod.ext_iff]
      rw [hout2, hout, hpair]
      omega
    · have hsplit := countP_split g.relations
        (fun r => decide (r.2 = b)) (fun r => decide (r.1 = a))
      have hin : (inOf g b).length = g.relations.countP (fun r => decide (r.2 = b)) := by
        simp [inOf, List.countP_eq_length_filter]
      have hin2 : (inOf (removeGraphElement g a) b).length
          = g.relations.countP (fun r => decide (r.2 = b) && !decide (r.1 = a)) := by
        simp only [inOf, removeGraphElement, List.filter_filter, List.length_map,
          ← List.countP_eq_length_filter]
        refine List.countP_congr ?_
        intro r _
        by_cases h1 : r.2 = b <;> by_cases h2 : r.1 = a <;>
          simp [h1, h2, hba]
      have hpair : g.relations.countP (fun r => decide (r = (a, b)))
          = g.relations.countP (fun r => decide (r.2 = b) && decide (r.1 = a)) := by
        refine List.countP_congr ?_
        intro r _
        by_cases h1 : r.1 = a <;> by_cases h2 : r.2 = b <;>
          simp [Prod.ext_iff, h1, h2]
      rw [hin2, hin, hpair]
      omega

/-- Witness for C7: removing element 1 from the graph with relations
2 to 1, 1 to 2, 2 to 3 drops element 2's outgoing count by one (the destroyed
relation 2 to 1) and its incoming count by one (the destroyed 1 to 2). -/
theorem removeGraphElement_destroys_witness :
    (outOf (removeGraphElement ⟨[1, 2, 3], [(2, 1), (1, 2), (2, 3)]⟩ 1) 2).length
        = (outOf ⟨[1, 2, 3], [(2, 1), (1, 2), (2, 3)]⟩ 2).length
          - (GraphW.relations ⟨[1, 2, 3], [(2, 1), (1, 2), (2, 3)]⟩).countP
              (fun r => decide (r = (2, 1)))
    ∧ (inOf (removeGraphElement ⟨[1, 2, 3], [(2, 1), (1, 2), (2, 3)]⟩ 1) 2).length
        = (inOf ⟨[1, 2, 3], [(2, 1), (1, 2), (2, 3)]⟩ 2).length
          - (GraphW.relations ⟨[1, 2, 3], [(2, 1), (1, 2), (2, 3)]⟩).countP
              (fun r => decide (r = (1, 2))) :=
  (removeGraphElement_destroys ⟨[1, 2, 3], [(2, 1), (1, 2), (2, 3)]⟩ 1).2.2 2 (by decide)

end RemoveDestroys

end TerathonModel

namespace TerathonModel

section SelfPredecessor

/-- While second is already in the visited list, the relation scan can never
report success: a visited finish is skipped before it is compared against
second, and second stays visited across every enqueue the scan performs. -/
theorem scanRelations_of_visited (second : Nat) :
    ∀ (l : List Nat) (s : PredState), second ∈ s.visited →
      (scanRelations second l s).1 = false ∧ second ∈ (scanRelations second l s).2.visited := by
  intro l
  induction l with
  | nil => intro s h; exact ⟨rfl, h⟩
  | cons f rest ih =>
      intro s h
      by_cases hf : f ∈ s.visited
      · simpa [scanRelations, hf] using ih s h
      · have hfs : f ≠ second := fun he => hf (he ▸ h)
        have h2 : second ∈ (moveToReady s f).visited := by
          simpa [moveToReady] using (List.mem_erase_of_ne (fun he => hfs he.symm)).mpr h
        simpa [scanRelations, hf, hfs] using ih _ h2

/-- While second is already in the visited list, the outer search loop can
only terminate with result false. -/
theorem predLoop_of_visited (out : Nat → List Nat) (second : Nat) :
    ∀ (fuel : Nat) (s : PredState), second ∈ s.visited →
      (predLoop out second fuel s).1 = false := by
  intro fuel
  induction fuel with
  | zero => intro s _; rfl
  | succ n ih =>
      intro s h
      cases hr : s.ready with
      | nil => simp [predLoop, hr]
      | cons e rest =>
          have h1 : second ∈ (moveToVisited s e).visited := by
            by_cases hse : second = e
            · simp [moveToVisited, hse]
            · simp only [moveToVisited, List.mem_append]
              exact Or.inl ((List.mem_erase_of_ne hse).mpr h)
          obtain ⟨hf, hv⟩ := scanRelations_of_visited second (out e) _ h1
          simp only [predLoop, hr, hf]
          simpa using ih _ hv

/-- Claim C3 (amended): Predecessor(a, a) returns false in every graph, even
when an explicit cycle path back to a exists: the start element is moved into
the visited list before its outgoing relations are scanned, and a finish that
is already visited is skipped before the comparison against second, so the
search never rediscovers its own start. -/
theorem predecessor_self_false (g : GraphW) (a : Nat) :
    (predecessor g a a).1 = false := by
  show (predLoop (outOf g) a (predFuel g)
    (moveToReady { elems := g.elementList, ready := [], visited := [], log := [] } a)).1 = false
  have hready : (moveToReady { elems := g.elementList, ready := [], visited := [], log := [] } a).ready
      = [a] := by simp [moveToReady]
  have h1 : a ∈ (moveToVisited
      (moveToReady { elems := g.elementList, ready := [], visited := [], log := [] } a) a).visited := by
    simp [moveToVisited]
  obtain ⟨hf, hv⟩ := scanRelations_of_visited a (outOf g a) _ h1
  show (predLoop (outOf g) a (g.relations.length + 1) _).1 = false
  simp only [predLoop, hready, hf]
  simpa using predLoop_of_visited (outOf g) a g.relations.length _ hv

end SelfPredecessor

end TerathonModel

namespace TerathonModel

section Conservation

/-- Moving a node that some scratch list currently holds into the ready list
permutes the over-all node population: the intrusive append first erases the
single occurrence of the node and then re-links it. -/
theorem concat_moveToReady_perm (s : PredState) (x : Nat)
    (hn : (concatState s).Nodup) (hx : x ∈ concatState s) :
    (concatState (moveToReady s x)).Perm (concatState s) := by
  have h1 : (concatState s).count x = 1 := List.count_eq_one_of_mem hn hx
  rw [List.perm_iff_count]
  intro a
  simp only [concatState, List.count_append] at h1 ⊢
  by_cases hax : a = x
  · subst hax
    simp only [moveToReady, List.count_erase, List.count_append, List.count_singleton]
    simp at h1 ⊢
    omega
  · have hxa : (x == a) = false := beq_eq_false_iff_ne.mpr (Ne.symm hax)
    have hax2 : (a == x) = false := beq_eq_false_iff_ne.mpr hax
    simp only [moveToReady, List.count_erase, List.count_append, List.count_singleton,
      hxa, hax2]
    simp

/-- Moving a held node into the visited list permutes the node population. -/
theorem concat_moveToVisited_perm (s : PredState) (x : Nat)
    (hn : (concatState s).Nodup) (hx : x ∈ concatState s) :
    (concatState (moveToVisited s x)).Perm (concatState s) := by
  have h1 : (concatState s).count x = 1 := List.count_eq_one_of_mem hn hx
  rw [List.perm_iff_count]
  intro a
  simp only [concatState, List.count_append] at h1 ⊢
  by_cases hax : a = x
  · subst hax
    simp only [moveToVisited, List.count_erase, List.count_append, List.count_singleton]
    simp at h1 ⊢
    omega
  · have hxa : (x == a) = false := beq_eq_false_iff_ne.mpr (Ne.symm hax)
    have hax2 : (a == x) = false := beq_eq_false_iff_ne.mpr hax
    simp only [moveToVisited, List.count_erase, List.count_append, List.count_singleton,
      hxa, hax2]
    simp

/-- Moving a held node back into the container's element list permutes the
node population. -/
theorem concat_moveToElems_perm (s : PredState) (x : Nat)
    (hn : (concatState s).Nodup) (hx : x ∈ concatState s) :
    (concatState (moveToElems s x)).Perm (concatState s) := by
  have h1 : (concatState s).count x = 1 := List.count_eq_one_of_mem hn hx
  rw [List.perm_iff_count]
  intro a
  simp only [concatState, List.count_append] at h1 ⊢
  by_cases hax : a = x
  · subst hax
    simp only [moveToElems, List.count_erase, List.count_append, List.count_singleton]
    simp at h1 ⊢
    omega
  · have hxa : (x == a) = false := beq_eq_false_iff_ne.mpr (Ne.symm hax)
    have hax2 : (a == x) = false := beq_eq_false_iff_ne.mpr hax
    simp only [moveToElems, List.count_erase, List.count_append, List.count_singleton,
      hxa, hax2]
    simp

/-- The relation scan conserves the node population: every finish it enqueues
is a member of the base population, so the intrusive move permutes it. -/
theorem scanRelations_concat_perm (second : Nat) (base : List Nat) (hb : base.Nodup) :
    ∀ (l : List Nat) (s : PredState), (concatState s).Perm base → (∀ f ∈ l, f ∈ base) →
      (concatState (scanRelations second l s).2).Perm base := by
  intro l
  induction l with
  | nil => intro s hp _; exact hp
  | cons f rest ih =>
      intro s hp hmem
      by_cases hf : f ∈ s.visited
      · simpa [scanRelations, hf] using ih s hp (fun x hx => hmem x (List.mem_cons_of_mem f hx))
      · by_cases hfs : f = second
        · subst hfs
          simpa [scanRelations, hf] using hp
        · have hnn : (concatState s).Nodup := hp.nodup_iff.mpr hb
          have hfc : f ∈ concatState s := hp.mem_iff.mpr (hmem f (List.mem_cons_self f rest))
          have hmove := (concat_moveToReady_perm s f hnn hfc).trans hp
          simpa [scanRelations, hf, hfs] using
            ih (moveToReady s f) hmove (fun x hx => hmem x (List.mem_cons_of_mem f hx))

/-- The search loop conserves the node population for any fuel. -/
theorem predLoop_concat_perm (out : Nat → List Nat) (second : Nat) (base : List Nat)
    (hb : base.Nodup) (hout : ∀ e, ∀ f ∈ out e, f ∈ base) :
    ∀ (fuel : Nat) (s : PredState), (concatState s).Perm base →
      (concatState (predLoop out second fuel s).2).Perm base := by
  intro fuel
  induction fuel with
  | zero => intro s hp; exact hp
  | succ n ih =>
      intro s hp
      cases hr : s.ready with
      | nil => simpa [predLoop, hr] using hp
      | cons e rest =>
          have hnn : (concatState s).Nodup := hp.nodup_iff.mpr hb
          have hec : e ∈ concatState s := by
            simp only [concatState, List.mem_append]
            exact Or.inl (Or.inr (by rw [hr]; exact List.mem_cons_self e rest))
          have hmove := (concat_moveToVisited_perm s e hnn hec).trans hp
          have hscan := scanRelations_concat_perm second base hb (out e)
            (moveToVisited s e) hmove (hout e)
          simp only [predLoop, hr]
          by_cases hfound : (scanRelations second (out e) (moveToVisited s e)).1
          · simpa [hfound] using hscan
          · simpa [hfound] using ih _ hscan

/-- The first splice-back loop conserves the node population. -/
theorem drainReadyFuel_concat_perm (base : List Nat) (hb : base.Nodup) :
    ∀ (fuel : Nat) (s : PredState), (concatState s).Perm base →
      (concatState (drainReadyFuel fuel s)).Perm base := by
  intro fuel
  induction fuel with
  | zero => intro s hp; exact hp
  | succ n ih =>
      intro s hp
      cases hr : s.ready with
      | nil => simpa [drainReadyFuel, hr] using hp
      | cons x rest =>
          have hnn : (concatState s).Nodup := hp.nodup_iff.mpr hb
          have hxc : x ∈ concatState s := by
            simp only [concatState, List.mem_append]
            exact Or.inl (Or.inr (by rw [hr]; exact List.mem_cons_self x rest))
          have hmove := (concat_moveToElems_perm s x hnn hxc).trans hp
          simpa [drainReadyFuel, hr] using ih _ hmove

/-- The second splice-back loop conserves the node population. -/
theorem drainVisitedFuel_concat_perm (base : List Nat) (hb : base.Nodup) :
    ∀ (fuel : Nat) (s : PredState), (concatState s).Perm base →
      (concatState (drainVisitedFuel fuel s)).Perm base := by
  intro fuel
  induction fuel with
  | zero => intro s hp; exact hp
  | succ n ih =>
      intro s hp
      cases hr : s.visited with
      | nil => simpa [drainVisitedFuel, hr] using hp
      | cons x rest =>
          have hnn : (concatState s).Nodup := hp.nodup_iff.mpr hb
          have hxc : x ∈ concatState s := by
            simp only [concatState, List.mem_append]
            exact Or.inr (by rw [hr]; exact List.mem_cons_self x rest)
          have hmove := (concat_moveToElems_perm s x hnn hxc).trans hp
          simpa [drainVisitedFuel, hr] using ih _ hmove

/-- Running the first splice-back loop with fuel at least the ready length
empties the ready list. -/
theorem drainReadyFuel_ready_nil :
    ∀ (fuel : Nat) (s : PredState), s.ready.length ≤ fuel →
      (drainReadyFuel fuel s).ready = [] := by
  intro fuel
  induction fuel with
  | zero =>
      intro s h
      exact List.eq_nil_of_length_eq_zero (Nat.le_zero.mp h)
  | succ n ih =>
      intro s h
      cases hr : s.ready with
      | nil => simp [drainReadyFuel, hr]
      | cons x rest =>
          have hlen : (moveToElems s x).ready.length ≤ n := by
            simp only [moveToElems, hr, List.erase_cons_head]
            rw [hr] at h
            simpa using Nat.lt_succ_iff.mp (Nat.lt_of_lt_of_le (by simp) h)
          simpa [drainReadyFuel, hr] using ih _ hlen

/-- The second splice-back loop never re-fills the ready list. -/
theorem drainVisitedFuel_ready_preserved :
    ∀ (fuel : Nat) (s : PredState), s.ready = [] →
      (drainVisitedFuel fuel s).ready = [] := by
  intro fuel
  induction fuel with
  | zero => intro s h; exact h
  | succ n ih =>
      intro s h
      cases hr : s.visited with
      | nil => simp [drainVisitedFuel, hr, h]
      | cons x rest =>
          have h2 : (moveToElems s x).ready = [] := by simp [moveToElems, h]
          simpa [drainVisitedFuel, hr] using ih _ h2

/-- Running the second splice-back loop with fuel at least the visited length
empties the visited list. -/
theorem drainVisitedFuel_visited_nil :
    ∀ (fuel : Nat) (s : PredState), s.visited.length ≤ fuel →
      (drainVisitedFuel fuel s).visited = [] := by
  intro fuel
  induction fuel with
  | zero =>
      intro s h
      exact List.eq_nil_of_length_eq_zero (Nat.le_zero.mp h)
  | succ n ih =>
      intro s h
      cases hr : s.visited with
      | nil => simp [drainVisitedFuel, hr]
      | cons x rest =>
          have hlen : (moveToElems s x).visited.length ≤ n := by
            simp only [moveToElems, hr, List.erase_cons_head]
            rw [hr] at h
            simpa using Nat.lt_succ_iff.mp (Nat.lt_of_lt_of_le (by simp) h)
          simpa [drainVisitedFuel, hr] using ih _ hlen

/-- Claim C8: when the first element and every relation finish are members of
the (duplicate-free) container, a Predecessor call conserves container
membership: the element list after the call is a permutation of the element
list before it, so no element is lost and none is duplicated, though the
iteration order may change. -/
theorem predecessor_conserves_elements (g : GraphW) (first second : Nat)
    (h1 : first ∈ g.elementList)
    (h2 : ∀ r ∈ g.relations, r.2 ∈ g.elementList)
    (h3 : g.elementList.Nodup) :
    ((predecessor g first second).2.elems).Perm g.elementList := by
  have hout : ∀ e, ∀ f ∈ outOf g e, f ∈ g.elementList := by
    intro e f hf
    simp only [outOf, List.mem_map, List.mem_filter] at hf
    obtain ⟨r, ⟨hr, _⟩, rfl⟩ := hf
    exact h2 r hr
  have hbase : (concatState { elems := g.elementList, ready := [], visited := [], log := [] }).Perm
      g.elementList := by
    simp [concatState]
  have hbc : first ∈ concatState { elems := g.elementList, ready := [], visited := [], log := [] } := by
    simp [concatState, h1]
  have hbn : (concatState { elems := g.elementList, ready := [], visited := [], log := [] }).Nodup :=
    hbase.nodup_iff.mpr h3
  set s0 := moveToReady { elems := g.elementList, ready := [], visited := [], log := [] } first with hs0
  set r1 := predLoop (outOf g) second (predFuel g) s0 with hr1
  set s2 := drainReadyFuel r1.2.ready.length r1.2 with hs2
  set s3 := drainVisitedFuel s2.visited.length s2 with hs3
  have hpred : (predecessor g first second).2 = s3 := rfl
  have h0 : (concatState s0).Perm g.elementList :=
    (concat_moveToReady_perm _ first hbn hbc).trans hbase
  have hloop : (concatState r1.2).Perm g.elementList :=
    predLoop_concat_perm (outOf g) second g.elementList h3 hout (predFuel g) s0 h0
  have hdr : (concatState s2).Perm g.elementList :=
    drainReadyFuel_concat_perm g.elementList h3 _ _ hloop
  have hdv : (concatState s3).Perm g.elementList :=
    drainVisitedFuel_concat_perm g.elementList h3 _ _ hdr
  have hready2 : s2.ready = [] := drainReadyFuel_ready_nil _ _ (Nat.le_refl _)
  have hready3 : s3.ready = [] := drainVisitedFuel_ready_preserved _ _ hready2
  have hvis3 : s3.visited = [] := drainVisitedFuel_visited_nil _ _ (Nat.le_refl _)
  have hconcat : concatState s3 = s3.elems := by
    simp [concatState, hready3, hvis3]
  rw [hpred, ← hconcat]
  exact hdv

end Conservation

end TerathonModel

namespace TerathonModel

section VisitOnce

/-- Witness for C8: in the three-element chain graph, the element list after
Predecessor(1,3) is a permutation of the original element list. -/
theorem predecessor_conserves_elements_witness :
    ((predecessor ⟨[1, 2, 3], [(1, 2), (2, 3)]⟩ 1 3).2.elems).Perm [1, 2, 3] :=
  predecessor_conserves_elements ⟨[1, 2, 3], [(1, 2), (2, 3)]⟩ 1 3
    (by decide) (by decide) (by decide)

/-- Erasing an element and re-appending it at the tail preserves freedom
from duplicates. -/
theorem nodup_erase_append_singleton (l : List Nat) (x : Nat) (h : l.Nodup) :
    (l.erase x ++ [x]).Nodup := by
  rw [List.nodup_append]
  refine ⟨h.erase x, List.nodup_singleton x, ?_⟩
  intro a ha hmem
  rcases List.mem_singleton.mp hmem with rfl
  exact ((h.mem_erase_iff).mp ha).1 rfl

/-- The relation scan keeps the ready and visited lists duplicate-free and
disjoint: a finish is tested against the visited list before every enqueue,
and the intrusive enqueue of an element already waiting in the ready list
merely moves it to the tail. -/
theorem scanRelations_scratch_inv (second : Nat) :
    ∀ (l : List Nat) (s : PredState),
      s.ready.Nodup → s.visited.Nodup → (∀ x ∈ s.visited, x ∉ s.ready) →
      ((scanRelations second l s).2.ready.Nodup
        ∧ (scanRelations second l s).2.visited.Nodup
        ∧ ∀ x ∈ (scanRelations second l s).2.visited, x ∉ (scanRelations second l s).2.ready) := by
  intro l
  induction l with
  | nil => intro s hr hv hd; exact ⟨hr, hv, hd⟩
  | cons f rest ih =>
      intro s hr hv hd
      by_cases hf : f ∈ s.visited
      · simpa [scanRelations, hf] using ih s hr hv hd
      · by_cases hfs : f = second
        · subst hfs
          simpa [scanRelations, hf] using ⟨hr, hv, hd⟩
        · have hr' : (moveToReady s f).ready.Nodup :=
            nodup_erase_append_singleton s.ready f hr
          have hv' : (moveToReady s f).visited.Nodup := hv.erase f
          have hd' : ∀ x ∈ (moveToReady s f).visited, x ∉ (moveToReady s f).ready := by
            intro x hx
            have hxv : x ∈ s.visited := List.mem_of_mem_erase hx
            have hxf : x ≠ f := fun he => hf (he ▸ hxv)
            simp only [moveToReady, List.mem_append, List.mem_singleton]
            rintro (hmem | rfl)
            · exact hd x hxv (List.mem_of_mem_erase hmem)
            · exact hxf rfl
          simpa [scanRelations, hf, hfs] using ih (moveToReady s f) hr' hv' hd'

/-- The search loop keeps the ready and visited lists duplicate-free and
disjoint for any fuel: each iteration moves a not-yet-visited element into
the visited list, so no element is expanded twice. -/
theorem predLoop_scratch_inv (out : Nat → List Nat) (second : Nat) :
    ∀ (fuel : Nat) (s : PredState),
      s.ready.Nodup → s.visited.Nodup → (∀ x ∈ s.visited, x ∉ s.ready) →
      ((predLoop out second fuel s).2.ready.Nodup
        ∧ (predLoop out second fuel s).2.visited.Nodup
        ∧ ∀ x ∈ (predLoop out second fuel s).2.visited, x ∉ (predLoop out second fuel s).2.ready) := by
  intro fuel
  induction fuel with
  | zero => intro s hr hv hd; exact ⟨hr, hv, hd⟩
  | succ n ih =>
      intro s hr hv hd
      cases hready : s.ready with
      | nil =>
          have hgoal : predLoop out second (n + 1) s = (false, s) := by
            simp [predLoop, hready]
          rw [hgoal]
          exact ⟨hr, hv, hd⟩
      | cons e rest =>
          have hyper : e ∈ s.ready := by rw [hready]; exact List.mem_cons_self e rest
          have hev : e ∉ s.visited := fun hmem => hd e hmem hyper
          have hr1 : (moveToVisited s e).ready.Nodup := hr.erase e
          have hv1 : (moveToVisited s e).visited.Nodup :=
            nodup_erase_append_singleton s.visited e hv
          have hd1 : ∀ x ∈ (moveToVisited s e).visited, x ∉ (moveToVisited s e).ready := by
            intro x hx
            simp only [moveToVisited, List.mem_append, List.mem_singleton] at hx
            rcases hx with hx | rfl
            · intro hmem
              exact hd x (List.mem_of_mem_erase hx) (List.mem_of_mem_erase hmem)
            · intro hmem
              exact ((hr.mem_erase_iff).mp hmem).1 rfl
          obtain ⟨hr2, hv2, hd2⟩ := scanRelations_scratch_inv second (out e) _ hr1 hv1 hd1
          simp only [predLoop, hready]
          by_cases hfound : (scanRelations second (out e) (moveToVisited s e)).1
          · simpa [hfound] using ⟨hr2, hv2, hd2⟩
          · simpa [hfound] using ih _ hr2 hv2 hd2

/-- Claim C9 (amended): throughout every Predecessor search (any fuel bound,
hence after any number of outer iterations) the visited list and the ready
list are duplicate-free and disjoint: every element is dequeued and expanded
at most once and occupies the breadth-first frontier at most once at any
time, the visited-set membership test being performed before every enqueue;
the enqueue operation itself may however run more than once for an element
already waiting in the frontier, re-moving it to the frontier tail. -/
theorem predecessor_expands_once (g : GraphW) (first second fuel : Nat) :
    ((predLoop (outOf g) second fuel
        (moveToReady (PredState.mk g.elementList [] [] []) first)).2.visited.Nodup
      ∧ (predLoop (outOf g) second fuel
          (moveToReady (PredState.mk g.elementList [] [] []) first)).2.ready.Nodup
      ∧ ∀ x ∈ (predLoop (outOf g) second fuel
          (moveToReady (PredState.mk g.elementList [] [] []) first)).2.visited,
            x ∉ (predLoop (outOf g) second fuel
              (moveToReady (PredState.mk g.elementList [] [] []) first)).2.ready) := by
  have h := predLoop_scratch_inv (outOf g) second fuel
    (moveToReady (PredState.mk g.elementList [] [] []) first)
    (by simp [moveToReady]) (by simp [moveToReady]) (by simp [moveToReady])
  exact ⟨h.2.1, h.1, h.2.2⟩

end VisitOnce

end TerathonModel

namespace TerathonModel

section TableInvariants

variable {K : Type} [DecidableEq K]

/-- Witness for C4: inserting a second element with key 5 into the table that
already holds key 5 places it immediately after the existing entry. -/
theorem insertHashTableElement_placement_witness :
    ((∀ x ∈ [(⟨0, 5, 5⟩ : HElem Nat)], x.key ≠ 5) ∧
      (insertHashTableElement (fun x => x) (buildTable (fun x => x) 2 2 [5]) 1 5).buckets
        = [[], [⟨0, 5, 5⟩]].set 1 ([(⟨0, 5, 5⟩ : HElem Nat)] ++ [⟨1, 5, 5⟩]))
    ∨ (∃ b1 a b2, [(⟨0, 5, 5⟩ : HElem Nat)] = b1 ++ a :: b2 ∧ a.key = 5
        ∧ (∀ x ∈ b2, x.key ≠ 5)
        ∧ (insertHashTableElement (fun x => x) (buildTable (fun x => x) 2 2 [5]) 1 5).buckets
            = [[], [⟨0, 5, 5⟩]].set 1 (b1 ++ a :: (⟨1, 5, 5⟩ : HElem Nat) :: b2)) :=
  insertHashTableElement_placement (fun x => x) (buildTable (fun x => x) 2 2 [5]) 1 5
    (by decide) (by decide)

/-- Bucket routing always lands inside a power-of-two bucket table: masking
with bucketCount - 1 is reduction mod bucketCount. -/
theorem getBucketIndex_lt (n : Nat) (hp : IsPow2 n) (hv : Nat) : getBucketIndex hv n < n := by
  obtain ⟨m, rfl⟩ := hp
  rw [getBucketIndex, Nat.and_pow_two_sub_one_eq_mod]
  exact Nat.mod_lt _ (Nat.two_pow_pos m)

/-- A recovered owning bucket is a real index whose chain holds the element. -/
theorem findBucketIdx_some : ∀ {bs : List (List (HElem K))} {eid i : Nat},
    findBucketIdx bs eid = some i →
    i < bs.length ∧ ∃ e ∈ bs.getD i [], (e.id == eid) = true := by
  intro bs
  induction bs with
  | nil => intro eid i h; cases h
  | cons b rest ih =>
      intro eid i h
      unfold findBucketIdx at h
      by_cases hb : b.any (fun e => e.id == eid)
      · rw [if_pos hb] at h
        have h0 : (0 : Nat) = i := by injection h
        obtain ⟨e, he, hpe⟩ := List.any_eq_true.mp hb
        subst h0
        exact ⟨Nat.succ_pos _, e, he, hpe⟩
      · rw [if_neg hb] at h
        cases hrec : findBucketIdx rest eid with
        | none => rw [hrec] at h; cases h
        | some j =>
            rw [hrec] at h
            have hji : j + 1 = i := by simpa using h
            obtain ⟨hlt, e, he, hpe⟩ := ih hrec
            subst hji
            exact ⟨Nat.succ_lt_succ hlt, e, he, hpe⟩

/-- No owning bucket is recovered exactly when no chain holds the element. -/
theorem findBucketIdx_none : ∀ {bs : List (List (HElem K))} {eid : Nat},
    findBucketIdx bs eid = none → ∀ b ∈ bs, ∀ e ∈ b, (e.id == eid) = false := by
  intro bs
  induction bs with
  | nil => intro eid _ b hb; cases hb
  | cons b0 rest ih =>
      intro eid h b hb
      unfold findBucketIdx at h
      by_cases hb0 : b0.any (fun e => e.id == eid)
      · rw [if_pos hb0] at h; cases h
      · rw [if_neg hb0] at h
        rcases List.mem_cons.mp hb with rfl | hbr
        · intro e he
          by_cases hpe : (e.id == eid) = true
          · exact absurd (List.any_eq_true.mpr ⟨e, he, hpe⟩) hb0
          · exact Bool.eq_false_iff.mpr hpe
        · cases hrec : findBucketIdx rest eid with
          | none => exact ih hrec b hbr
          | some j => rw [hrec] at h; cases h

/-- Conversely, an element held by no chain has no owning bucket. -/
theorem findBucketIdx_eq_none : ∀ {bs : List (List (HElem K))} {eid : Nat},
    (∀ b ∈ bs, ∀ e ∈ b, (e.id == eid) = false) → findBucketIdx bs eid = none := by
  intro bs
  induction bs with
  | nil => intro eid _; rfl
  | cons b0 rest ih =>
      intro eid h
      unfold findBucketIdx
      have hb0 : ¬ (b0.any (fun e => e.id == eid) = true) := by
        rw [List.any_eq_true]
        rintro ⟨e, he, hpe⟩
        rw [h b0 (List.mem_cons_self b0 rest) e he] at hpe
        cases hpe
      rw [if_neg hb0, ih (fun b hb e he => h b (List.mem_cons_of_mem b0 hb) e he)]
      rfl

/-- Replacing one bucket changes the per-predicate total by the difference of
the replaced chain. -/
theorem sum_countP_set {p : HElem K → Bool} : ∀ (bs : List (List (HElem K))) (i : Nat)
    (b' : List (HElem K)), i < bs.length →
    ((bs.set i b').map (List.countP p)).sum + (bs.getD i []).countP p
      = (bs.map (List.countP p)).sum + b'.countP p := by
  intro bs
  induction bs with
  | nil => intro i b' h; cases h
  | cons b rest ih =>
      intro i b' h
      cases i with
      | zero => simp [List.set]; omega
      | succ j =>
          have hj : j < rest.length := Nat.lt_of_succ_lt_succ h
          have hrec := ih j b' hj
          simp only [List.set, List.map_cons, List.sum_cons, List.getD_cons_succ]
          omega

/-- Splicing a new node into the middle of a chain adds its contribution. -/
theorem countP_insert_mid (b : List (HElem K)) (pos : Nat) (e : HElem K) (q : HElem K → Bool) :
    (b.take (pos + 1) ++ e :: b.drop (pos + 1)).countP q
      = b.countP q + (if q e then 1 else 0) := by
  rw [List.countP_append, List.countP_cons]
  conv_rhs => rw [← List.take_append_drop (pos + 1) b, List.countP_append]
  omega

/-- Redistribution preserves bucket-table length and adds each appended
element's contribution once to the per-predicate total. -/
theorem redist_sum (n2 : Nat) (hp : IsPow2 n2) (p : HElem K → Bool) :
    ∀ (elems : List (HElem K)) (nb : List (List (HElem K))), nb.length = n2 →
      ((elems.foldl (redistAppend n2) nb).map (List.countP p)).sum
          = (nb.map (List.countP p)).sum + elems.countP p
      ∧ (elems.foldl (redistAppend n2) nb).length = n2 := by
  intro elems
  induction elems with
  | nil => intro nb h; simp [h]
  | cons e rest ih =>
      intro nb h
      have hlt : getBucketIndex e.hv n2 < nb.length := by
        rw [h]; exact getBucketIndex_lt n2 hp e.hv
      have hset := sum_countP_set (p := p) nb (getBucketIndex e.hv n2)
        ((nb.getD (getBucketIndex e.hv n2) []) ++ [e]) hlt
      have hc : ((nb.getD (getBucketIndex e.hv n2) []) ++ [e]).countP p
          = (nb.getD (getBucketIndex e.hv n2) []).countP p + (if p e then 1 else 0) := by
        simp [List.countP_append, List.countP_cons]
      have hone : ((redistAppend n2 nb e).map (List.countP p)).sum
          = (nb.map (List.countP p)).sum + (if p e then 1 else 0) := by
        simp only [redistAppend]
        omega
      have hlen2 : (redistAppend n2 nb e).length = n2 := by simp [redistAppend, h]
      obtain ⟨hsum, hlen3⟩ := ih (redistAppend n2 nb e) hlen2
      refine ⟨?_, by rw [List.foldl_cons]; exact hlen3⟩
      rw [List.foldl_cons, hsum, hone, List.countP_cons]
      omega

end TableInvariants

end TerathonModel

namespace TerathonModel

section TableWFPreservation

variable {K : Type} [DecidableEq K]

/-- totalSize written through the trivial predicate, for reuse of the
counting lemmas. -/
theorem totalSize_eq_sum_true (t : Table K) :
    totalSize t = (t.buckets.map (List.countP (fun _ => true))).sum := by
  rw [totalSize, List.countP_true]

/-- Redistribution does not change how many chain nodes hold a given id. -/
theorem idCount_resize (t : Table K) (hp : IsPow2 t.bucketCount) (eid : Nat) :
    idCount (resizeBucketTable t) eid = idCount t eid := by
  have hp2 : IsPow2 (t.bucketCount * 2) := by
    obtain ⟨m, hm⟩ := hp
    exact ⟨m + 1, by rw [hm]; ring⟩
  have h1 := (redist_sum (t.bucketCount * 2) hp2 (fun e => e.id == eid)
    t.buckets.reverse.flatten (List.replicate (t.bucketCount * 2) [])
    (List.length_replicate _ _)).1
  have h0 : ((List.replicate (t.bucketCount * 2) ([] : List (HElem K))).map
      (List.countP (fun e => e.id == eid))).sum = 0 := by simp
  have hflat : t.buckets.reverse.flatten.countP (fun e => e.id == eid) = idCount t eid := by
    rw [List.countP_flatten, List.map_reverse, List.sum_reverse]
    rfl
  rw [h0, hflat] at h1
  simpa [idCount] using h1

/-- Redistribution does not change the stored element count. -/
theorem elementCount_resize (t : Table K) (h : TableWF t) :
    (resizeBucketTable t).elementCount = t.elementCount := by
  show ((t.buckets.reverse.flatten.length : Nat) : Int) = t.elementCount
  rw [List.length_flatten, List.map_reverse, List.sum_reverse]
  exact h.count.symm

/-- ResizeBucketTable preserves table well-formedness. -/
theorem tableWF_resize (t : Table K) (h : TableWF t) : TableWF (resizeBucketTable t) := by
  have hp2 : IsPow2 (t.bucketCount * 2) := by
    obtain ⟨m, hm⟩ := h.pow2
    exact ⟨m + 1, by rw [hm]; ring⟩
  have hlenrep : (List.replicate (t.bucketCount * 2) ([] : List (HElem K))).length
      = t.bucketCount * 2 := List.length_replicate _ _
  have htot : totalSize (resizeBucketTable t) = t.buckets.reverse.flatten.length := by
    have h1 := (redist_sum (t.bucketCount * 2) hp2 (fun _ => true)
      t.buckets.reverse.flatten (List.replicate (t.bucketCount * 2) []) hlenrep).1
    rw [List.countP_true] at h1
    have h0 : ((List.replicate (t.bucketCount * 2) ([] : List (HElem K))).map List.length).sum
        = 0 := by simp
    rw [h0] at h1
    simpa [totalSize, resizeBucketTable] using h1
  refine { pow2 := hp2, len := ?_, count := ?_, nodupIds := ?_ }
  · exact (redist_sum (t.bucketCount * 2) hp2 (fun _ => true)
      t.buckets.reverse.flatten (List.replicate (t.bucketCount * 2) []) hlenrep).2
  · rw [htot]
    rfl
  · intro eid
    rw [idCount_resize t h.pow2 eid]
    exact h.nodupIds eid

/-- An element held by no chain is unattached. -/
theorem ownedBucketIdx_eq_none_of_idCount_zero (t : Table K) (eid : Nat)
    (h : idCount t eid = 0) : ownedBucketIdx t eid = none := by
  apply findBucketIdx_eq_none
  intro b hb e he
  have hcz : b.countP (fun x => x.id == eid) = 0 := by
    have hmem : b.countP (fun x => x.id == eid)
        ∈ t.buckets.map (List.countP (fun x => x.id == eid)) := List.mem_map_of_mem _ hb
    exact (List.sum_eq_zero_iff.mp h) _ hmem
  exact Bool.eq_false_iff.mpr (List.countP_eq_zero.mp hcz e he)

/-- Unlinking a held element from its chain: its id-count and the chain size
drop by one; any predicate false on the held id is untouched. -/
theorem eraseP_bucket_counts (b : List (HElem K)) (eid : Nat)
    (hmem : ∃ e ∈ b, (e.id == eid) = true) :
    (b.eraseP (fun e => e.id == eid)).countP (fun e => e.id == eid) + 1
        = b.countP (fun e => e.id == eid)
    ∧ (b.eraseP (fun e => e.id == eid)).length + 1 = b.length
    ∧ ∀ q : HElem K → Bool, (∀ e : HElem K, (e.id == eid) = true → q e = false) →
        (b.eraseP (fun e => e.id == eid)).countP q = b.countP q := by
  obtain ⟨e, he, hpe⟩ := hmem
  obtain ⟨a, l1, l2, hl1, hpa, hbe, her⟩ :=
    @List.exists_of_eraseP (HElem K) (fun e => e.id == eid) b e he hpe
  refine ⟨?_, ?_, ?_⟩
  · rw [her, hbe]
    simp [List.countP_append, List.countP_cons, hpa]
    omega
  · rw [her, hbe]
    simp
    omega
  · intro q hq
    rw [her, hbe]
    simp [List.countP_append, List.countP_cons, hq a hpa]

/-- RemoveHashTableElement on an attached element: the count drops by one,
the element is no longer held anywhere, other ids are untouched, and
well-formedness is preserved. -/
theorem removeHashTableElement_attached (t : Table K) (h : TableWF t) (eid bi : Nat)
    (hb : ownedBucketIdx t eid = some bi) :
    (removeHashTableElement t eid).elementCount = t.elementCount - 1
    ∧ idCount (removeHashTableElement t eid) eid = 0
    ∧ TableWF (removeHashTableElement t eid) := by
  obtain ⟨hlt, hexists⟩ := findBucketIdx_some hb
  obtain ⟨hc1, hc2, hc3⟩ := eraseP_bucket_counts (t.buckets.getD bi []) eid hexists
  have hred : removeHashTableElement t eid = removeBucketElementAt t bi eid := by
    unfold removeHashTableElement
    rw [show ownedBucketIdx t eid = some bi from hb]
  have hbucketsum : ∀ q : HElem K → Bool,
      ((removeBucketElementAt t bi eid).buckets.map (List.countP q)).sum
        + (t.buckets.getD bi []).countP q
      = (t.buckets.map (List.countP q)).sum
        + ((t.buckets.getD bi []).eraseP (fun e => e.id == eid)).countP q :=
    fun q => sum_countP_set t.buckets bi _ hlt
  have hidsum := hbucketsum (fun e => e.id == eid)
  have hnodup := h.nodupIds eid
  have hidzero : idCount (removeBucketElementAt t bi eid) eid = 0 := by
    simp only [idCount] at hidsum hnodup ⊢
    omega
  have htruesum := hbucketsum (fun _ => true)
  have hcb : (t.buckets.getD bi []).countP (fun _ => true)
      = (t.buckets.getD bi []).length := by
    rw [List.countP_true]
  have hce : ((t.buckets.getD bi []).eraseP (fun e => e.id == eid)).countP (fun _ => true)
      = ((t.buckets.getD bi []).eraseP (fun e => e.id == eid)).length := by
    rw [List.countP_true]
  have htot : totalSize (removeBucketElementAt t bi eid) + 1 = totalSize t := by
    rw [totalSize_eq_sum_true, totalSize_eq_sum_true]
    omega
  have hcount : (removeBucketElementAt t bi eid).elementCount = t.elementCount - 1 := rfl
  refine ⟨by rw [hred]; exact hcount, by rw [hred]; exact hidzero, ?_⟩
  rw [hred]
  refine { pow2 := h.pow2, len := by simpa [removeBucketElementAt] using h.len,
           count := ?_, nodupIds := ?_ }
  · rw [hcount, h.count]
    omega
  · intro eid2
    by_cases he2 : eid2 = eid
    · subst he2
      rw [hidzero]
      exact Nat.zero_le 1
    · have hqf : ∀ e : HElem K, (e.id == eid) = true → ((e.id == eid2) : Bool) = false := by
        intro e hpe
        have hide : e.id = eid := by simpa using hpe
        rw [hide]
        exact beq_eq_false_iff_ne.mpr fun hh => he2 hh.symm
      have hq := hc3 (fun e => e.id == eid2) hqf
      have hsum2 := hbucketsum (fun e => e.id == eid2)
      have hn2 := h.nodupIds eid2
      simp only [idCount] at hn2 ⊢
      omega

end TableWFPreservation

end TerathonModel

namespace TerathonModel

section InsertPreservation

variable {K : Type} [DecidableEq K]

/-- An unattached element is held by no chain. -/
theorem idCount_eq_zero_of_none (t : Table K) (eid : Nat)
    (h : ownedBucketIdx t eid = none) : idCount t eid = 0 := by
  have hall := findBucketIdx_none h
  simp only [idCount]
  rw [List.sum_eq_zero_iff]
  intro x hx
  obtain ⟨b, hb, rfl⟩ := List.mem_map.mp hx
  exact List.countP_eq_zero.mpr fun e he => by rw [hall b hb e he]; exact Bool.false_ne_true

/-- Adding a fresh node to one bucket: the count rises by one, the node's id
becomes held exactly once, and well-formedness is preserved; this covers both
the tail append and the mid-chain splice. -/
theorem place_generic (t1 : Table K) (bi : Nat) (b' : List (HElem K)) (e : HElem K) (eid : Nat)
    (hWF : TableWF t1) (hbi : bi < t1.buckets.length)
    (hb' : ∀ q : HElem K → Bool,
      b'.countP q = (t1.buckets.getD bi []).countP q + (if q e then 1 else 0))
    (hid : e.id = eid) (h0 : idCount t1 eid = 0) :
    TableWF ({ t1 with buckets := t1.buckets.set bi b', elementCount := t1.elementCount + 1 })
    ∧ idCount ({ t1 with buckets := t1.buckets.set bi b', elementCount := t1.elementCount + 1 }) eid = 1 := by
  have hsum : ∀ q : HElem K → Bool,
      ((t1.buckets.set bi b').map (List.countP q)).sum + (t1.buckets.getD bi []).countP q
        = (t1.buckets.map (List.countP q)).sum + b'.countP q :=
    fun q => sum_countP_set t1.buckets bi b' hbi
  have hid1 : idCount ({ t1 with buckets := t1.buckets.set bi b', elementCount := t1.elementCount + 1 }) eid = 1 := by
    have h1 := hsum (fun x => x.id == eid)
    have h2 := hb' (fun x => x.id == eid)
    simp only [hid, beq_self_eq_true, if_true] at h2
    simp only [idCount] at h0 ⊢
    omega
  have htot : totalSize ({ t1 with buckets := t1.buckets.set bi b', elementCount := t1.elementCount + 1 }) = totalSize t1 + 1 := by
    have h1 := hsum (fun _ => true)
    have h2 := hb' (fun _ => true)
    simp only [if_true] at h2
    rw [totalSize_eq_sum_true, totalSize_eq_sum_true]
    simp only []
    omega
  refine ⟨{ pow2 := hWF.pow2, len := ?_, count := ?_, nodupIds := ?_ }, hid1⟩
  · show (t1.buckets.set bi b').length = t1.bucketCount
    rw [List.length_set]
    exact hWF.len
  · show t1.elementCount + 1 = _
    rw [htot]
    have := hWF.count
    push_cast
    omega
  · intro eid2
    by_cases he2 : eid2 = eid
    · subst he2
      rw [hid1]
    · have h1 := hsum (fun x => x.id == eid2)
      have h2 := hb' (fun x => x.id == eid2)
      have hqe : ((e.id == eid2) : Bool) = false := by
        rw [hid]
        exact beq_eq_false_iff_ne.mpr fun hh => he2 hh.symm
      rw [hqe, if_neg Bool.false_ne_true] at h2
      have hn2 := hWF.nodupIds eid2
      simp only [idCount] at hn2 ⊢
      omega

/-- The placement phase of InsertHashTableElement (the tail-to-head scan and
the splice or append it chooses) raises the count by one and makes the new
element held exactly once, preserving well-formedness. -/
theorem place_after_scan (hash : K → Nat) (t1 : Table K) (eid : Nat) (k : K)
    (hWF1 : TableWF t1) (h01 : idCount t1 eid = 0) :
    TableWF (match tailScanEqualKey (t1.buckets.getD (getBucketIndex (hash k) t1.bucketCount) []) k with
       | some pos =>
          insertBucketElementAfterAt t1 (getBucketIndex (hash k) t1.bucketCount) pos ⟨eid, k, hash k⟩
       | none => appendBucketElement t1 (getBucketIndex (hash k) t1.bucketCount) ⟨eid, k, hash k⟩)
    ∧ (match tailScanEqualKey (t1.buckets.getD (getBucketIndex (hash k) t1.bucketCount) []) k with
       | some pos =>
          insertBucketElementAfterAt t1 (getBucketIndex (hash k) t1.bucketCount) pos ⟨eid, k, hash k⟩
       | none =>
          appendBucketElement t1 (getBucketIndex (hash k) t1.bucketCount) ⟨eid, k, hash k⟩).elementCount
        = t1.elementCount + 1
    ∧ idCount (match tailScanEqualKey (t1.buckets.getD (getBucketIndex (hash k) t1.bucketCount) []) k with
       | some pos =>
          insertBucketElementAfterAt t1 (getBucketIndex (hash k) t1.bucketCount) pos ⟨eid, k, hash k⟩
       | none =>
          appendBucketElement t1 (getBucketIndex (hash k) t1.bucketCount) ⟨eid, k, hash k⟩) eid = 1 := by
  have hbilt : getBucketIndex (hash k) t1.bucketCount < t1.buckets.length := by
    rw [hWF1.len]
    exact getBucketIndex_lt _ hWF1.pow2 _
  cases hscan : tailScanEqualKey (t1.buckets.getD (getBucketIndex (hash k) t1.bucketCount) []) k with
  | none =>
      simp only [hscan]
      have hb' : ∀ q : HElem K → Bool,
          ((t1.buckets.getD (getBucketIndex (hash k) t1.bucketCount) [])
              ++ [(⟨eid, k, hash k⟩ : HElem K)]).countP q
            = (t1.buckets.getD (getBucketIndex (hash k) t1.bucketCount) []).countP q
              + (if q ⟨eid, k, hash k⟩ then 1 else 0) := by
        intro q
        simp [List.countP_append, List.countP_cons]
      have h := place_generic t1 (getBucketIndex (hash k) t1.bucketCount) _
        ⟨eid, k, hash k⟩ eid hWF1 hbilt hb' rfl h01
      exact ⟨h.1, rfl, h.2⟩
  | some pos =>
      simp only [hscan]
      have hb' : ∀ q : HElem K → Bool,
          ((t1.buckets.getD (getBucketIndex (hash k) t1.bucketCount) []).take (pos + 1)
              ++ (⟨eid, k, hash k⟩ : HElem K)
                :: ((t1.buckets.getD (getBucketIndex (hash k) t1.bucketCount) []).drop (pos + 1))).countP q
            = (t1.buckets.getD (getBucketIndex (hash k) t1.bucketCount) []).countP q
              + (if q ⟨eid, k, hash k⟩ then 1 else 0) :=
        fun q => countP_insert_mid _ pos _ q
      have h := place_generic t1 (getBucketIndex (hash k) t1.bucketCount) _
        ⟨eid, k, hash k⟩ eid hWF1 hbilt hb' rfl h01
      exact ⟨h.1, rfl, h.2⟩

/-- Inserting an element held by no chain: the count rises by exactly one
(through at most one resize) and the element ends up held exactly once. -/
theorem insertHashTableElement_fresh (hash : K → Nat) (t : Table K) (hWF : TableWF t)
    (eid : Nat) (k : K) (h0 : idCount t eid = 0) :
    TableWF (insertHashTableElement hash t eid k)
    ∧ (insertHashTableElement hash t eid k).elementCount = t.elementCount + 1
    ∧ idCount (insertHashTableElement hash t eid k) eid = 1 := by
  have hnone : ownedBucketIdx t eid = none := ownedBucketIdx_eq_none_of_idCount_zero t eid h0
  have hunfold : insertHashTableElement hash t eid k
      = (match tailScanEqualKey
            ((if t.resizeLimit ≤ t.elementCount then resizeBucketTable t else t).buckets.getD
              (getBucketIndex (hash k)
                (if t.resizeLimit ≤ t.elementCount then resizeBucketTable t else t).bucketCount) []) k with
         | some pos =>
            insertBucketElementAfterAt
              (if t.resizeLimit ≤ t.elementCount then resizeBucketTable t else t)
              (getBucketIndex (hash k)
                (if t.resizeLimit ≤ t.elementCount then resizeBucketTable t else t).bucketCount)
              pos ⟨eid, k, hash k⟩
         | none =>
            appendBucketElement
              (if t.resizeLimit ≤ t.elementCount then resizeBucketTable t else t)
              (getBucketIndex (hash k)
                (if t.resizeLimit ≤ t.elementCount then resizeBucketTable t else t).bucketCount)
              ⟨eid, k, hash k⟩) := by
    unfold insertHashTableElement
    rw [hnone]
  rw [hunfold]
  set t1 := if t.resizeLimit ≤ t.elementCount then resizeBucketTable t else t with ht1
  have hWF1 : TableWF t1 := by
    rw [ht1]
    split
    · exact tableWF_resize t hWF
    · exact hWF
  have h01 : idCount t1 eid = 0 := by
    rw [ht1]
    split
    · rw [idCount_resize t hWF.pow2]
      exact h0
    · exact h0
  have hc1 : t1.elementCount = t.elementCount := by
    rw [ht1]
    split
    · exact elementCount_resize t hWF
    · rfl
  obtain ⟨hW, hC, hI⟩ := place_after_scan hash t1 eid k hWF1 h01
  exact ⟨hW, by rw [hC, hc1], hI⟩

/-- InsertHashTableElement preserves well-formedness from any state. -/
theorem tableWF_insert (hash : K → Nat) (t : Table K) (hWF : TableWF t) (eid : Nat) (k : K) :
    TableWF (insertHashTableElement hash t eid k) := by
  cases hb : ownedBucketIdx t eid with
  | none => exact (insertHashTableElement_fresh hash t hWF eid k
      (idCount_eq_zero_of_none t eid hb)).1
  | some i =>
      have hunfold : insertHashTableElement hash t eid k
          = (match tailScanEqualKey ((removeBucketElementAt t i eid).buckets.getD
                (getBucketIndex (hash k) (removeBucketElementAt t i eid).bucketCount) []) k with
             | some pos =>
                insertBucketElementAfterAt (removeBucketElementAt t i eid)
                  (getBucketIndex (hash k) (removeBucketElementAt t i eid).bucketCount)
                  pos ⟨eid, k, hash k⟩
             | none =>
                appendBucketElement (removeBucketElementAt t i eid)
                  (getBucketIndex (hash k) (removeBucketElementAt t i eid).bucketCount)
                  ⟨eid, k, hash k⟩) := by
        unfold insertHashTableElement
        rw [hb]
      have hred : removeHashTableElement t eid = removeBucketElementAt t i eid := by
        unfold removeHashTableElement
        rw [hb]
      obtain ⟨hcnt, hid0, hWF'⟩ := removeHashTableElement_attached t hWF eid i hb
      rw [hred] at hid0 hWF'
      rw [hunfold]
      exact (place_after_scan hash (removeBucketElementAt t i eid) eid k hWF' hid0).1

/-- RemoveAllHashTableElements preserves well-formedness. -/
theorem tableWF_removeAll (t : Table K) (h : TableWF t) : TableWF (removeAllHashTableElements t) := by
  have htot : totalSize (removeAllHashTableElements t) = 0 := by
    rw [totalSize, List.sum_eq_zero_iff]
    intro x hx
    simp only [removeAllHashTableElements, List.map_map, List.mem_map] at hx
    obtain ⟨b, _, rfl⟩ := hx
    rfl
  refine { pow2 := h.pow2, len := by simpa [removeAllHashTableElements] using h.len,
           count := ?_, nodupIds := ?_ }
  · rw [htot]
    rfl
  · intro eid
    have : idCount (removeAllHashTableElements t) eid = 0 := by
      simp only [idCount]
      rw [List.sum_eq_zero_iff]
      intro x hx
      simp only [removeAllHashTableElements, List.map_map, List.mem_map] at hx
      obtain ⟨b, _, rfl⟩ := hx
      rfl
    omega
/-- PurgeHashTable preserves well-formedness. -/
theorem tableWF_purge (t : Table K) (h : TableWF t) : TableWF (purgeHashTable t) := by
  have htot : totalSize (purgeHashTable t) = 0 := by
    rw [totalSize, List.sum_eq_zero_iff]
    intro x hx
    simp only [purgeHashTable, List.map_map, List.mem_map] at hx
    obtain ⟨b, _, rfl⟩ := hx
    rfl
  refine { pow2 := h.pow2, len := by simpa [purgeHashTable] using h.len,
           count := ?_, nodupIds := ?_ }
  · rw [htot]
    rfl
  · intro eid
    have : idCount (purgeHashTable t) eid = 0 := by
      simp only [idCount]
      rw [List.sum_eq_zero_iff]
      intro x hx
      simp only [purgeHashTable, List.map_map, List.mem_map] at hx
      obtain ⟨b, _, rfl⟩ := hx
      rfl
    omega

/-- A freshly constructed table with a power-of-two bucket count is
well-formed. -/
theorem tableWF_construct (n d : Nat) (hp : IsPow2 n) : TableWF (constructHashTable K n d) := by
  have htot : totalSize (constructHashTable K n d) = 0 := by
    rw [totalSize, List.sum_eq_zero_iff]
    intro x hx
    simp only [constructHashTable, List.mem_map] at hx
    obtain ⟨b, hb, rfl⟩ := hx
    rw [List.eq_of_mem_replicate hb]
    rfl
  refine { pow2 := hp, len := List.length_replicate _ _, count := ?_, nodupIds := ?_ }
  · rw [htot]
    rfl
  · intro eid
    have : idCount (constructHashTable K n d) eid = 0 := by
      simp only [idCount]
      rw [List.sum_eq_zero_iff]
      intro x hx
      simp only [constructHashTable, List.mem_map] at hx
      obtain ⟨b, hb, rfl⟩ := hx
      rw [List.eq_of_mem_replicate hb]
      rfl
    omega

/-- Every public operation preserves well-formedness. -/
theorem tableWF_apply (hash : K → Nat) (t : Table K) (h : TableWF t) (op : HashOp K) :
    TableWF (applyHashOp hash t op) := by
  cases op with
  | insert eid k => exact tableWF_insert hash t h eid k
  | remove eid =>
      cases hb : ownedBucketIdx t eid with
      | none =>
          have hnoop : removeHashTableElement t eid = t := by
            unfold removeHashTableElement
            rw [hb]
          show TableWF (removeHashTableElement t eid)
          rw [hnoop]
          exact h
      | some i => exact (removeHashTableElement_attached t h eid i hb).2.2
  | removeAll => exact tableWF_removeAll t h
  | purge => exact tableWF_purge t h
  | resize => exact tableWF_resize t h

/-- Well-formedness holds after any operation sequence. -/
theorem tableWF_run (hash : K → Nat) : ∀ (ops : List (HashOp K)) (t : Table K),
    TableWF t → TableWF (runHashOps hash t ops) := by
  intro ops
  induction ops with
  | nil => intro t h; exact h
  | cons op rest ih => intro t h; exact ih _ (tableWF_apply hash t h op)

/-- Claim C6: in every state reachable from a fresh table through any
sequence of insert, remove, remove-all, purge and resize operations the
element count equals the sum of the bucket sizes; ResizeBucketTable exactly
doubles both the bucket count and the resize threshold; and removing an
attached element and then re-inserting it leaves the element count unchanged
net, the element being held by exactly one chain node afterwards (never
counted twice). -/
theorem hashTable_count_invariants (hash : K → Nat) :
    (∀ (j d : Nat) (ops : List (HashOp K)),
        (runHashOps hash (constructHashTable K (2 ^ j) d) ops).elementCount
          = ((totalSize (runHashOps hash (constructHashTable K (2 ^ j) d) ops) : Nat) : Int))
    ∧ (∀ t : Table K,
        (resizeBucketTable t).bucketCount = 2 * t.bucketCount
        ∧ (resizeBucketTable t).resizeLimit = 2 * t.resizeLimit)
    ∧ (∀ (t : Table K) (eid bi : Nat) (k : K), TableWF t → ownedBucketIdx t eid = some bi →
        (insertHashTableElement hash (removeHashTableElement t eid) eid k).elementCount
            = t.elementCount
        ∧ idCount (insertHashTableElement hash (removeHashTableElement t eid) eid k) eid = 1) := by
  refine ⟨?_, ?_, ?_⟩
  · intro j d ops
    exact (tableWF_run hash ops _ (tableWF_construct _ _ ⟨j, rfl⟩)).count
  · intro t
    constructor
    · show t.bucketCount * 2 = 2 * t.bucketCount
      ring
    · show t.resizeLimit * 2 = 2 * t.resizeLimit
      ring
  · intro t eid bi k hWF hb
    obtain ⟨hcnt, hid0, hWF'⟩ := removeHashTableElement_attached t hWF eid bi hb
    obtain ⟨_, hC, hI⟩ := insertHashTableElement_fresh hash _ hWF' eid k hid0
    refine ⟨?_, hI⟩
    rw [hC, hcnt]
    ring

/-- Witness for C6: a concrete reachable one-element table satisfies the
count invariant, and removing then re-inserting its element (id 0, new key 7)
leaves the count unchanged with the element held exactly once. -/
theorem hashTable_count_invariants_witness :
    (runHashOps (fun x => x) (constructHashTable Nat (2 ^ 1) 1) [HashOp.insert 0 3]).elementCount
      = ((totalSize (runHashOps (fun x => x) (constructHashTable Nat (2 ^ 1) 1)
          [HashOp.insert 0 3]) : Nat) : Int)
    ∧ ((insertHashTableElement (fun x => x)
          (removeHashTableElement
            (runHashOps (fun x => x) (constructHashTable Nat 2 2) [HashOp.insert 0 5]) 0) 0 7).elementCount
        = (runHashOps (fun x => x) (constructHashTable Nat 2 2) [HashOp.insert 0 5]).elementCount
      ∧ idCount (insertHashTableElement (fun x => x)
          (removeHashTableElement
            (runHashOps (fun x => x) (constructHashTable Nat 2 2) [HashOp.insert 0 5]) 0) 0 7) 0 = 1) :=
  ⟨(hashTable_count_invariants (fun x => x)).1 1 1 [HashOp.insert 0 3],
   (hashTable_count_invariants (fun x => x)).2.2
     (runHashOps (fun x => x) (constructHashTable Nat 2 2) [HashOp.insert 0 5]) 0 1 7
     (tableWF_run (fun x => x) [HashOp.insert 0 5] _ (tableWF_construct 2 2 ⟨1, rfl⟩))
     (by decide)⟩

end InsertPreservation

end TerathonModel

namespace TerathonModel

section KeyOrderHelpers

variable {K : Type} [DecidableEq K]

/-- The head-to-tail find of FindHashTableElement returns the first chain
element satisfying the predicate. -/
theorem find?_eq_head?_filter {α : Type} (p : α → Bool) : ∀ (l : List α),
    l.find? p = (l.filter p).head? := by
  intro l
  induction l with
  | nil => rfl
  | cons x xs ih =>
      by_cases hx : p x
      · rw [List.find?_cons, List.filter_cons, hx, if_pos rfl]
        rfl
      · have hx2 : p x = false := Bool.eq_false_iff.mpr hx
        rw [List.find?_cons, List.filter_cons, hx2, if_neg Bool.false_ne_true]
        exact ih

/-- getD on a bucket table of empty chains. -/
theorem getD_replicate_nil {α : Type} : ∀ (n i : Nat),
    (List.replicate n ([] : List α)).getD i [] = [] := by
  intro n
  induction n with
  | zero => intro i; cases i <;> rfl
  | succ m ih =>
      intro i
      cases i with
      | zero => rfl
      | succ j => exact ih j

/-- getD after replacing one entry of a list. -/
theorem getD_set_of_lt {α : Type} (bs : List α) (j i : Nat) (x d : α) (hi : i < bs.length) :
    (bs.set j x).getD i d = if j = i then x else bs.getD i d := by
  have hi' : i < (bs.set j x).length := by simpa using hi
  by_cases hji : j = i
  · rw [if_pos hji, List.getD_eq_getElem _ _ hi', List.getElem_set, if_pos hji]
  · rw [if_neg hji, List.getD_eq_getElem _ _ hi', List.getD_eq_getElem _ _ hi,
      List.getElem_set, if_neg hji]

/-- getD through a reversal. -/
theorem getD_reverse_of_lt {α : Type} (bs : List α) (i : Nat) (d : α) (hi : i < bs.length) :
    bs.reverse.getD i d = bs.getD (bs.length - 1 - i) d := by
  have h1 : i < bs.reverse.length := by simpa using hi
  have h2 : bs.length - 1 - i < bs.length := by omega
  rw [List.getD_eq_getElem _ _ h1, List.getD_eq_getElem _ _ h2]
  exact List.getElem_reverse h1

/-- getD through a map of chain filters. -/
theorem getD_map_filter {α : Type} (p : α → Bool) (L : List (List α)) (j : Nat) :
    (L.map (List.filter p)).getD j [] = (L.getD j []).filter p :=
  List.getD_map L [] (List.filter p)

/-- A list of lists that is empty everywhere except possibly at one index
flattens to that entry. -/
theorem flatten_eq_getD {α : Type} : ∀ (M : List (List α)) (i0 : Nat), i0 < M.length →
    (∀ j, j < M.length → j ≠ i0 → M.getD j [] = []) → M.flatten = M.getD i0 [] := by
  intro M
  induction M with
  | nil => intro i0 h; cases h
  | cons m rest ih =>
      intro i0 h0 hj
      cases i0 with
      | zero =>
          have hrest : rest.flatten = [] := by
            rw [List.flatten_eq_nil_iff]
            intro l hl
            obtain ⟨n, hn, hln⟩ := List.mem_iff_getElem.mp hl
            have hx := hj (n + 1) (by simpa using Nat.succ_lt_succ hn) (Nat.succ_ne_zero n)
            rw [List.getD_cons_succ] at hx
            rw [← hln, ← List.getD_eq_getElem _ ([] : List α) hn]
            exact hx
          simp [List.flatten_cons, hrest]
      | succ j0 =>
          have hm : m = [] := by
            have hx := hj 0 (Nat.succ_pos _) (Nat.succ_ne_zero j0).symm
            simpa using hx
          have hrec := ih j0 (Nat.lt_of_succ_lt_succ h0) ?_
          · simp [List.flatten_cons, hm, hrec, List.getD_cons_succ]
          · intro j hjl hne
            have hx := hj (j + 1) (by simpa using Nat.succ_lt_succ hjl) (by omega)
            rw [List.getD_cons_succ] at hx
            exact hx

/-- The head of the id list of a key's occurrences is the position of the
key's first occurrence in the insertion sequence. -/
theorem head?_keyIdxs (k : K) : ∀ (ks : List K) (p : Nat), k ∈ ks →
    (keyIdxs p ks k).head? = some (p + ks.indexOf k) := by
  intro ks
  induction ks with
  | nil => intro p h; cases h
  | cons k0 rest ih =>
      intro p h
      by_cases hk0 : k0 = k
      · subst hk0
        simp [keyIdxs, List.indexOf_cons]
      · have hmem : k ∈ rest := by
          rcases List.mem_cons.mp h with rfl | hm
          · exact absurd rfl hk0
          · exact hm
        have hbeq : (k0 == k) = false := beq_eq_false_iff_ne.mpr hk0
        simp only [keyIdxs, if_neg hk0]
        rw [ih (p + 1) hmem, List.indexOf_cons, hbeq]
        simp only [Bool.cond_false]
        congr 1
        omega

/-- Redistribution fills each new bucket with exactly the redistributed
elements routed to it, in traversal order. -/
theorem redist_get (n2 : Nat) (hp : IsPow2 n2) :
    ∀ (elems : List (HElem K)) (nb : List (List (HElem K))), nb.length = n2 →
    ∀ i, i < n2 →
      (elems.foldl (redistAppend n2) nb).getD i []
        = nb.getD i [] ++ elems.filter (fun e => getBucketIndex e.hv n2 == i) := by
  intro elems
  induction elems with
  | nil => intro nb hl i hi; simp
  | cons e rest ih =>
      intro nb hl i hi
      have hlt : getBucketIndex e.hv n2 < nb.length := by
        rw [hl]; exact getBucketIndex_lt n2 hp e.hv
      have hlen2 : (redistAppend n2 nb e).length = n2 := by simp [redistAppend, hl]
      rw [List.foldl_cons, ih (redistAppend n2 nb e) hlen2 i hi]
      have hgetD : (redistAppend n2 nb e).getD i []
          = if getBucketIndex e.hv n2 = i
            then nb.getD i [] ++ [e] else nb.getD i [] := by
        simp only [redistAppend]
        rw [getD_set_of_lt _ _ _ _ _ (by rw [hl]; exact hi)]
        by_cases hdest : getBucketIndex e.hv n2 = i
        · rw [if_pos hdest, if_pos hdest, hdest]
        · rw [if_neg hdest, if_neg hdest]
      by_cases hdest : getBucketIndex e.hv n2 = i
      · have hfe : (getBucketIndex e.hv n2 == i) = true := by simp [hdest]
        rw [hgetD, if_pos hdest, List.filter_cons, hfe]
        simp
      · have hfe : (getBucketIndex e.hv n2 == i) = false := beq_eq_false_iff_ne.mpr hdest
        rw [hgetD, if_neg hdest, List.filter_cons, hfe, if_neg Bool.false_ne_true]

end KeyOrderHelpers

end TerathonModel

namespace TerathonModel

section KeyOrderResize

variable {K : Type} [DecidableEq K]

/-- Redistribution is stable for each key: because all elements with one key
share one cached hash, they come out of a single old bucket (in chain order)
and land together in a single new bucket, so the key's chain sequence is
unchanged by a resize. -/
theorem keyEntries_resize (hash : K → Nat) (t : Table K)
    (hp : IsPow2 t.bucketCount) (hlen : t.buckets.length = t.bucketCount)
    (hres : ∀ bi, bi < t.buckets.length → ∀ e ∈ t.buckets.getD bi [],
      e.hv = hash e.key ∧ getBucketIndex e.hv t.bucketCount = bi) (k : K) :
    keyEntries hash (resizeBucketTable t) k = keyEntries hash t k := by
  have hp2 : IsPow2 (t.bucketCount * 2) := by
    obtain ⟨m, hm⟩ := hp
    exact ⟨m + 1, by rw [hm]; ring⟩
  have hi2lt : getBucketIndex (hash k) (t.bucketCount * 2) < t.bucketCount * 2 :=
    getBucketIndex_lt _ hp2 _
  have hi0lt : getBucketIndex (hash k) t.bucketCount < t.bucketCount :=
    getBucketIndex_lt _ hp _
  have hglob : ∀ e ∈ t.buckets.reverse.flatten, e.hv = hash e.key := by
    intro e he
    obtain ⟨l, hl, hel⟩ := List.mem_flatten.mp he
    obtain ⟨j, hj, hlj⟩ := List.mem_iff_getElem.mp (List.mem_reverse.mp hl)
    refine (hres j hj e ?_).1
    rw [List.getD_eq_getElem _ _ hj, hlj]
    exact hel
  have hget : (resizeBucketTable t).buckets.getD
        (getBucketIndex (hash k) (t.bucketCount * 2)) []
      = t.buckets.reverse.flatten.filter
          (fun e => getBucketIndex e.hv (t.bucketCount * 2)
            == getBucketIndex (hash k) (t.bucketCount * 2)) := by
    show (t.buckets.reverse.flatten.foldl (redistAppend (t.bucketCount * 2))
        (List.replicate (t.bucketCount * 2) [])).getD _ [] = _
    rw [redist_get (t.bucketCount * 2) hp2 _ _ (List.length_replicate _ _) _ hi2lt,
      getD_replicate_nil]
    rfl
  have hstep1 : keyEntries hash (resizeBucketTable t) k
      = (t.buckets.reverse.flatten.filter
          (fun e => getBucketIndex e.hv (t.bucketCount * 2)
            == getBucketIndex (hash k) (t.bucketCount * 2))).filter
          (fun e => decide (e.key = k)) := by
    show ((resizeBucketTable t).buckets.getD
        (getBucketIndex (hash k) (t.bucketCount * 2)) []).filter (fun e => decide (e.key = k)) = _
    rw [hget]
  have hstep2 : (t.buckets.reverse.flatten.filter
        (fun e => getBucketIndex e.hv (t.bucketCount * 2)
          == getBucketIndex (hash k) (t.bucketCount * 2))).filter
        (fun e => decide (e.key = k))
      = t.buckets.reverse.flatten.filter (fun e => decide (e.key = k)) := by
    rw [List.filter_filter]
    refine List.filter_congr ?_
    intro e he
    by_cases hek : e.key = k
    · have h1 : e.hv = hash k := by rw [hglob e he, hek]
      have h2 : (getBucketIndex e.hv (t.bucketCount * 2)
          == getBucketIndex (hash k) (t.bucketCount * 2)) = true := by
        rw [h1]
        exact beq_self_eq_true _
      simp [hek, h2]
    · simp [hek]
  have hMj : ∀ j, j < t.bucketCount → j ≠ getBucketIndex (hash k) t.bucketCount →
      (t.buckets.map (List.filter (fun e => decide (e.key = k)))).getD j [] = [] := by
    intro j hj hne
    have hjlen : j < t.buckets.length := by rw [hlen]; exact hj
    rw [getD_map_filter, List.filter_eq_nil_iff]
    intro e he hek
    have hr := hres j hjlen e he
    have hkk : e.key = k := of_decide_eq_true hek
    exact hne (by rw [← hr.2, hr.1, hkk])
  have hMlen : (t.buckets.map (List.filter (fun e => decide (e.key = k)))).length
      = t.bucketCount := by
    rw [List.length_map]
    exact hlen
  have hfr : ((t.buckets.map (List.filter (fun e => decide (e.key = k)))).reverse).flatten
      = (t.buckets.map (List.filter (fun e => decide (e.key = k)))).getD
          (getBucketIndex (hash k) t.bucketCount) [] := by
    rw [flatten_eq_getD
      ((t.buckets.map (List.filter (fun e => decide (e.key = k)))).reverse)
      (t.bucketCount - 1 - getBucketIndex (hash k) t.bucketCount)
      (by rw [List.length_reverse, hMlen]; omega) ?_]
    · rw [getD_reverse_of_lt _ _ _ (by rw [hMlen]; omega)]
      congr 1
      rw [hMlen]
      omega
    · intro j hj hne
      rw [List.length_reverse, hMlen] at hj
      rw [getD_reverse_of_lt _ _ _ (by rw [hMlen]; exact hj)]
      refine hMj ((t.buckets.map (List.filter (fun e => decide (e.key = k)))).length - 1 - j)
        ?_ ?_
      · rw [hMlen]
        omega
      · rw [hMlen]
        omega
  rw [hstep1, hstep2, List.filter_flatten, List.map_reverse, hfr, getD_map_filter]
  rfl

end KeyOrderResize

end TerathonModel

namespace TerathonModel

section KeyOrderInvariant

variable {K : Type} [DecidableEq K]

/-- Membership in a list after replacing one position. -/
theorem mem_set_cases {α : Type} (bs : List α) (j : Nat) (x b : α) (hb : b ∈ bs.set j x) :
    b = x ∨ b ∈ bs := by
  obtain ⟨i, hi, hbi⟩ := List.mem_iff_getElem.mp hb
  rw [List.getElem_set] at hbi
  by_cases hji : j = i
  · rw [if_pos hji] at hbi
    exact Or.inl hbi.symm
  · rw [if_neg hji] at hbi
    right
    rw [← hbi]
    exact List.getElem_mem (by simpa using hi)

/-- The key-order invariant survives a resize. -/
theorem keyInv_resize (hash : K → Nat) (t : Table K) (p : Nat) (σ : K → List Nat)
    (h : KeyInv hash t p σ) : KeyInv hash (resizeBucketTable t) p σ := by
  have hp2 : IsPow2 (t.bucketCount * 2) := by
    obtain ⟨m, hm⟩ := h.pow2
    exact ⟨m + 1, by rw [hm]; ring⟩
  have hlen2 : (resizeBucketTable t).buckets.length = t.bucketCount * 2 :=
    (redist_sum (t.bucketCount * 2) hp2 (fun _ => true) t.buckets.reverse.flatten
      (List.replicate (t.bucketCount * 2) []) (List.length_replicate _ _)).2
  have hgd : ∀ j, j < t.bucketCount * 2 →
      (resizeBucketTable t).buckets.getD j []
        = t.buckets.reverse.flatten.filter
            (fun e => getBucketIndex e.hv (t.bucketCount * 2) == j) := by
    intro j hj
    show (t.buckets.reverse.flatten.foldl (redistAppend (t.bucketCount * 2))
        (List.replicate (t.bucketCount * 2) [])).getD j [] = _
    rw [redist_get (t.bucketCount * 2) hp2 _ _ (List.length_replicate _ _) _ hj,
      getD_replicate_nil]
    rfl
  have hglob : ∀ e ∈ t.buckets.reverse.flatten, e.hv = hash e.key ∧ e.id < p := by
    intro e he
    obtain ⟨l, hl, hel⟩ := List.mem_flatten.mp he
    have hl2 : l ∈ t.buckets := List.mem_reverse.mp hl
    obtain ⟨j, hj, hlj⟩ := List.mem_iff_getElem.mp hl2
    refine ⟨(h.resid j hj e ?_).1, h.fresh l hl2 e hel⟩
    rw [List.getD_eq_getElem _ _ hj, hlj]
    exact hel
  refine { pow2 := hp2, len := hlen2, resid := ?_, fresh := ?_, keys := ?_ }
  · intro bi hbi e he
    have hbi2 : bi < t.bucketCount * 2 := by rw [← hlen2]; exact hbi
    rw [hgd bi hbi2] at he
    have hmem := List.mem_of_mem_filter he
    have hdest := List.of_mem_filter he
    exact ⟨(hglob e hmem).1, eq_of_beq hdest⟩
  · intro b hb e he
    obtain ⟨j, hj, hbj⟩ := List.mem_iff_getElem.mp hb
    have hj2 : j < t.bucketCount * 2 := by rw [← hlen2]; exact hj
    have hbeq : b = t.buckets.reverse.flatten.filter
        (fun e => getBucketIndex e.hv (t.bucketCount * 2) == j) := by
      rw [← hbj, ← List.getD_eq_getElem _ ([] : List (HElem K)) hj]
      exact hgd j hj2
    rw [hbeq] at he
    exact (hglob e (List.mem_of_mem_filter he)).2
  · intro k
    rw [keyEntries_resize hash t h.pow2 h.len h.resid k]
    exact h.keys k

/-- The key-order invariant survives the placement of a fresh element with id
p and key k into the bucket its hash routes to, provided the new chain has,
for every key, the old key sequence followed by the new element exactly when
the keys match. -/
theorem keyInv_place (hash : K → Nat) (t1 : Table K) (p : Nat) (σ : K → List Nat) (k : K)
    (h1 : KeyInv hash t1 p σ) (b' : List (HElem K))
    (hfil : ∀ k2 : K, b'.filter (fun e => decide (e.key = k2))
        = (t1.buckets.getD (getBucketIndex (hash k) t1.bucketCount) []).filter
            (fun e => decide (e.key = k2))
          ++ (if k2 = k then [(⟨p, k, hash k⟩ : HElem K)] else []))
    (hmem : ∀ e ∈ b',
        e ∈ t1.buckets.getD (getBucketIndex (hash k) t1.bucketCount) []
        ∨ e = (⟨p, k, hash k⟩ : HElem K)) :
    KeyInv hash ({ t1 with
        buckets := t1.buckets.set (getBucketIndex (hash k) t1.bucketCount) b',
        elementCount := t1.elementCount + 1 }) (p + 1)
      (fun k2 => if k2 = k then σ k2 ++ [p] else σ k2) := by
  have hbilt : getBucketIndex (hash k) t1.bucketCount < t1.buckets.length := by
    rw [h1.len]
    exact getBucketIndex_lt _ h1.pow2 _
  refine { pow2 := h1.pow2, len := ?_, resid := ?_, fresh := ?_, keys := ?_ }
  · show (t1.buckets.set (getBucketIndex (hash k) t1.bucketCount) b').length = t1.bucketCount
    rw [List.length_set]
    exact h1.len
  · intro bi hbi e he
    have hbi' : bi < t1.buckets.length := by
      rw [h1.len]
      simpa [List.length_set, h1.len] using hbi
    have he2 : e ∈ (t1.buckets.set (getBucketIndex (hash k) t1.bucketCount) b').getD bi [] := he
    rw [getD_set_of_lt _ _ _ _ _ hbi'] at he2
    show e.hv = hash e.key ∧ getBucketIndex e.hv t1.bucketCount = bi
    by_cases hbik : getBucketIndex (hash k) t1.bucketCount = bi
    · rw [if_pos hbik] at he2
      rcases hmem e he2 with hold | rfl
      · have := h1.resid (getBucketIndex (hash k) t1.bucketCount) hbilt e hold
        rw [← hbik]
        exact this
      · exact ⟨rfl, hbik⟩
    · rw [if_neg hbik] at he2
      exact h1.resid bi hbi' e he2
  · intro b hb e he
    have hb2 : b ∈ t1.buckets.set (getBucketIndex (hash k) t1.bucketCount) b' := hb
    rcases mem_set_cases _ _ _ _ hb2 with rfl | hold
    · rcases hmem e he with hold2 | rfl
      · have hbmem : t1.buckets.getD (getBucketIndex (hash k) t1.bucketCount) [] ∈ t1.buckets := by
          rw [List.getD_eq_getElem _ _ hbilt]
          exact List.getElem_mem hbilt
        exact Nat.lt_succ_of_lt (h1.fresh _ hbmem e hold2)
      · exact Nat.lt_succ_self p
    · exact Nat.lt_succ_of_lt (h1.fresh b hold e he)
  · intro k2
    have hgd2 : keyEntries hash ({ t1 with
        buckets := t1.buckets.set (getBucketIndex (hash k) t1.bucketCount) b',
        elementCount := t1.elementCount + 1 }) k2
        = (if getBucketIndex (hash k) t1.bucketCount = getBucketIndex (hash k2) t1.bucketCount
           then b' else t1.buckets.getD (getBucketIndex (hash k2) t1.bucketCount) []).filter
            (fun e => decide (e.key = k2)) := by
      show ((t1.buckets.set (getBucketIndex (hash k) t1.bucketCount) b').getD
          (getBucketIndex (hash k2) t1.bucketCount) []).filter (fun e => decide (e.key = k2)) = _
      rw [getD_set_of_lt _ _ _ _ _ (by rw [h1.len]; exact getBucketIndex_lt _ h1.pow2 _)]
    rw [hgd2]
    by_cases hkk : k2 = k
    · subst hkk
      rw [if_pos rfl, if_pos rfl, hfil k2, if_pos rfl]
      have hold : (t1.buckets.getD (getBucketIndex (hash k2) t1.bucketCount) []).filter
          (fun e => decide (e.key = k2)) = (σ k2).map (fun i => (⟨i, k2, hash k2⟩ : HElem K)) :=
        h1.keys k2
      rw [hold, List.map_append]
      rfl
    · by_cases hbb : getBucketIndex (hash k) t1.bucketCount
          = getBucketIndex (hash k2) t1.bucketCount
      · rw [if_pos hbb, hfil k2, if_neg hkk, List.append_nil, if_neg hkk, hbb]
        exact h1.keys k2
      · rw [if_neg hbb, if_neg hkk]
        exact h1.keys k2

end KeyOrderInvariant

end TerathonModel

namespace TerathonModel

section KeyOrderInsert

variable {K : Type} [DecidableEq K]

/-- Inserting a fresh element with id p extends the key-order invariant: the
new element's id is appended to its own key's sequence and every other key's
sequence is untouched. -/
theorem keyInv_insert (hash : K → Nat) (t : Table K) (p : Nat) (σ : K → List Nat)
    (h : KeyInv hash t p σ) (k : K) :
    KeyInv hash (insertHashTableElement hash t p k) (p + 1)
      (fun k2 => if k2 = k then σ k2 ++ [p] else σ k2) := by
  have hnone : ownedBucketIdx t p = none := by
    apply findBucketIdx_eq_none
    intro b hb e he
    exact beq_eq_false_iff_ne.mpr (Nat.ne_of_lt (h.fresh b hb e he))
  have hunfold : insertHashTableElement hash t p k
      = (match tailScanEqualKey
            ((if t.resizeLimit ≤ t.elementCount then resizeBucketTable t else t).buckets.getD
              (getBucketIndex (hash k)
                (if t.resizeLimit ≤ t.elementCount then resizeBucketTable t else t).bucketCount) []) k with
         | some pos =>
            insertBucketElementAfterAt
              (if t.resizeLimit ≤ t.elementCount then resizeBucketTable t else t)
              (getBucketIndex (hash k)
                (if t.resizeLimit ≤ t.elementCount then resizeBucketTable t else t).bucketCount)
              pos ⟨p, k, hash k⟩
         | none =>
            appendBucketElement
              (if t.resizeLimit ≤ t.elementCount then resizeBucketTable t else t)
              (getBucketIndex (hash k)
                (if t.resizeLimit ≤ t.elementCount then resizeBucketTable t else t).bucketCount)
              ⟨p, k, hash k⟩) := by
    unfold insertHashTableElement
    rw [hnone]
  rw [hunfold]
  set t1 := if t.resizeLimit ≤ t.elementCount then resizeBucketTable t else t with ht1
  have h1 : KeyInv hash t1 p σ := by
    rw [ht1]
    split
    · exact keyInv_resize hash t p σ h
    · exact h
  cases hscan : tailScanEqualKey
      (t1.buckets.getD (getBucketIndex (hash k) t1.bucketCount) []) k with
  | none =>
      simp only [hscan]
      have hfil : ∀ k2 : K,
          ((t1.buckets.getD (getBucketIndex (hash k) t1.bucketCount) [])
              ++ [(⟨p, k, hash k⟩ : HElem K)]).filter (fun e => decide (e.key = k2))
            = (t1.buckets.getD (getBucketIndex (hash k) t1.bucketCount) []).filter
                (fun e => decide (e.key = k2))
              ++ (if k2 = k then [(⟨p, k, hash k⟩ : HElem K)] else []) := by
        intro k2
        rw [List.filter_append]
        congr 1
        by_cases hk2 : k2 = k
        · subst hk2
          simp [List.filter_cons]
        · have hkne : k ≠ k2 := Ne.symm hk2
          simp [List.filter_cons, hkne, hk2]
      have hmem : ∀ e ∈ (t1.buckets.getD (getBucketIndex (hash k) t1.bucketCount) [])
          ++ [(⟨p, k, hash k⟩ : HElem K)],
          e ∈ t1.buckets.getD (getBucketIndex (hash k) t1.bucketCount) []
          ∨ e = (⟨p, k, hash k⟩ : HElem K) := by
        intro e he
        rcases List.mem_append.mp he with hl | hr
        · exact Or.inl hl
        · exact Or.inr (List.mem_singleton.mp hr)
      exact keyInv_place hash t1 p σ k h1 _ hfil hmem
  | some pos =>
      simp only [hscan]
      obtain ⟨b1, a, b2, hb, hlenb1, hkey, hclean⟩ := tailScanEqualKey_some hscan
      have hsplit : t1.buckets.getD (getBucketIndex (hash k) t1.bucketCount) []
          = (b1 ++ [a]) ++ b2 := by
        rw [hb]
        simp
      have hlen1 : (b1 ++ [a]).length = pos + 1 := by simp [hlenb1]
      have heq : insertBucketElementAfterAt t1 (getBucketIndex (hash k) t1.bucketCount) pos
            (⟨p, k, hash k⟩ : HElem K)
          = ({ t1 with
              buckets := t1.buckets.set (getBucketIndex (hash k) t1.bucketCount)
                (b1 ++ a :: (⟨p, k, hash k⟩ : HElem K) :: b2),
              elementCount := t1.elementCount + 1 }) := by
        unfold insertBucketElementAfterAt
        rw [hsplit, List.take_left' hlen1, List.drop_left' hlen1]
        simp
      rw [heq]
      have hfil : ∀ k2 : K,
          (b1 ++ a :: (⟨p, k, hash k⟩ : HElem K) :: b2).filter (fun e => decide (e.key = k2))
            = (t1.buckets.getD (getBucketIndex (hash k) t1.bucketCount) []).filter
                (fun e => decide (e.key = k2))
              ++ (if k2 = k then [(⟨p, k, hash k⟩ : HElem K)] else []) := by
        intro k2
        rw [hb]
        by_cases hk2 : k2 = k
        · subst hk2
          have hb2nil : b2.filter (fun e => decide (e.key = k2)) = [] := by
            rw [List.filter_eq_nil_iff]
            intro x hx hdec
            exact hclean x hx (of_decide_eq_true hdec)
          simp [List.filter_append, List.filter_cons, hb2nil, hkey]
        · have hkne : k ≠ k2 := Ne.symm hk2
          simp [List.filter_append, List.filter_cons, hkne, hk2]
      have hmem : ∀ e ∈ b1 ++ a :: (⟨p, k, hash k⟩ : HElem K) :: b2,
          e ∈ t1.buckets.getD (getBucketIndex (hash k) t1.bucketCount) []
          ∨ e = (⟨p, k, hash k⟩ : HElem K) := by
        intro e he
        rw [hb]
        rcases List.mem_append.mp he with h1m | h2m
        · exact Or.inl (List.mem_append.mpr (Or.inl h1m))
        · rcases List.mem_cons.mp h2m with rfl | h3m
          · exact Or.inl (List.mem_append.mpr (Or.inr (List.mem_cons_self _ _)))
          · rcases List.mem_cons.mp h3m with rfl | h4m
            · exact Or.inr rfl
            · exact Or.inl (List.mem_append.mpr (Or.inr (List.mem_cons_of_mem _ h4m)))
      exact keyInv_place hash t1 p σ k h1 _ hfil hmem

end KeyOrderInsert

end TerathonModel

namespace TerathonModel

section FindEarliest

variable {K : Type} [DecidableEq K]

/-- A freshly constructed table satisfies the key-order invariant with empty
key sequences. -/
theorem keyInv_construct (hash : K → Nat) (j d : Nat) :
    KeyInv hash (constructHashTable K (2 ^ j) d) 0 (fun _ => []) := by
  refine { pow2 := ⟨j, rfl⟩, len := List.length_replicate _ _,
           resid := ?_, fresh := ?_, keys := ?_ }
  · intro bi hbi e he
    have hnil : (constructHashTable K (2 ^ j) d).buckets.getD bi [] = [] :=
      getD_replicate_nil _ _
    rw [hnil] at he
    cases he
  · intro b hb e he
    have hb2 : b ∈ List.replicate (2 ^ j) ([] : List (HElem K)) := hb
    rw [List.eq_of_mem_replicate hb2] at he
    cases he
  · intro k
    show ((List.replicate (2 ^ j) ([] : List (HElem K))).getD
      (getBucketIndex (hash k) (2 ^ j)) []).filter (fun e => decide (e.key = k)) = []
    rw [getD_replicate_nil]
    rfl

/-- Inserting a whole sequence of fresh elements extends the key-order
invariant: each key's id sequence gains the positions of that key's
occurrences, in order. -/
theorem keyInv_insertList (hash : K → Nat) : ∀ (ks : List K) (t : Table K) (p : Nat)
    (σ : K → List Nat), KeyInv hash t p σ →
    KeyInv hash (insertList hash t p ks) (p + ks.length)
      (fun k2 => σ k2 ++ keyIdxs p ks k2) := by
  intro ks
  induction ks with
  | nil =>
      intro t p σ h
      refine { pow2 := h.pow2, len := h.len, resid := h.resid, fresh := ?_, keys := ?_ }
      · simpa using h.fresh
      · intro k2
        rw [show keyIdxs p ([] : List K) k2 = [] from rfl, List.append_nil]
        exact h.keys k2
  | cons k rest ih =>
      intro t p σ h
      have hrec := ih (insertHashTableElement hash t p k) (p + 1)
        (fun k2 => if k2 = k then σ k2 ++ [p] else σ k2) (keyInv_insert hash t p σ h k)
      refine { pow2 := hrec.pow2, len := hrec.len, resid := hrec.resid,
               fresh := ?_, keys := ?_ }
      · intro b hb e he
        have hlt := hrec.fresh b hb e he
        simp only [List.length_cons]
        omega
      · intro k2
        show keyEntries hash (insertList hash (insertHashTableElement hash t p k) (p + 1) rest) k2
          = _
        rw [hrec.keys k2]
        congr 1
        show (if k2 = k then σ k2 ++ [p] else σ k2) ++ keyIdxs (p + 1) rest k2
          = σ k2 ++ keyIdxs p (k :: rest) k2
        by_cases hk2 : k2 = k
        · subst hk2
          rw [if_pos rfl, show keyIdxs p (k2 :: rest) k2 = p :: keyIdxs (p + 1) rest k2 from
            by rw [keyIdxs, if_pos rfl]]
          simp
        · rw [if_neg hk2, show keyIdxs p (k :: rest) k2 = keyIdxs (p + 1) rest k2 from
            by rw [keyIdxs, if_neg (fun hh => hk2 hh.symm)]]

/-- Claim C1: after any sequence of insertions of fresh elements, looking up
a key that was inserted returns an element whose key equals the looked-up key
and whose id is the position of the key's first occurrence in the insertion
sequence: the earliest-inserted element with that key, also in the presence
of duplicate keys. -/
theorem findHashTableElement_earliest (hash : K → Nat) (j d : Nat) (ks : List K) (k : K)
    (hk : k ∈ ks) :
    findHashTableElement hash (buildTable hash (2 ^ j) d ks) k
      = some ⟨ks.indexOf k, k, hash k⟩ := by
  have hInv := keyInv_insertList hash ks (constructHashTable K (2 ^ j) d) 0 (fun _ => [])
    (keyInv_construct hash j d)
  have hkeys := hInv.keys k
  have hfind : findHashTableElement hash (buildTable hash (2 ^ j) d ks) k
      = (keyEntries hash (buildTable hash (2 ^ j) d ks) k).head? := by
    show ((buildTable hash (2 ^ j) d ks).buckets.getD
        (getBucketIndex (hash k) (buildTable hash (2 ^ j) d ks).bucketCount) []).find?
        (fun e => decide (e.key = k)) = _
    exact find?_eq_head?_filter _ _
  have hent : keyEntries hash (buildTable hash (2 ^ j) d ks) k
      = (keyIdxs 0 ks k).map (fun i => (⟨i, k, hash k⟩ : HElem K)) := by
    show keyEntries hash (insertList hash (constructHashTable K (2 ^ j) d) 0 ks) k = _
    rw [hkeys]
    simp
  rw [hfind, hent, List.head?_map, head?_keyIdxs k ks 0 hk]
  simp

/-- Witness for C1: with identity hashing, inserting keys 5 then 5 again and
looking up 5 yields the first-inserted element (id 0) with key 5. -/
theorem findHashTableElement_earliest_witness :
    findHashTableElement (fun x => x) (buildTable (fun x => x) (2 ^ 1) 1 [5, 5]) 5
      = some ⟨List.indexOf 5 [5, 5], 5, 5⟩ :=
  findHashTableElement_earliest (fun x => x) 1 1 [5, 5] 5 (by decide)

end FindEarliest

end TerathonModel

namespace TerathonModel

section FuelSufficiency

/-- A search state with an empty ready list is final for any fuel. -/
theorem predLoop_ready_nil (out : Nat → List Nat) (second : Nat) (s : PredState)
    (h : s.ready = []) : ∀ fuel, predLoop out second fuel s = (false, s) := by
  intro fuel
  cases fuel with
  | zero => rfl
  | succ n => simp [predLoop, h]

/-- The relation scan never changes the visited list: it only ever moves
finishes that are not visited, and the intrusive erase of an absent node is
the identity. -/
theorem scanRelations_visited_eq (second : Nat) :
    ∀ (l : List Nat) (s : PredState), (scanRelations second l s).2.visited = s.visited := by
  intro l
  induction l with
  | nil => intro s; rfl
  | cons f rest ih =>
      intro s
      by_cases hf : f ∈ s.visited
      · simpa [scanRelations, hf] using ih s
      · by_cases hfs : f = second
        · subst hfs
          simp [scanRelations, hf]
        · have hv : (moveToReady s f).visited = s.visited := by
            simp [moveToReady, List.erase_of_not_mem hf]
          simp only [scanRelations, if_neg hf, if_neg hfs]
          rw [ih (moveToReady s f), hv]

/-- The relation scan keeps the ready list inside the candidate population
when the scanned finishes come from it. -/
theorem scanRelations_ready_subset (second : Nat) (cand : List Nat) :
    ∀ (l : List Nat) (s : PredState), (∀ x ∈ s.ready, x ∈ cand) → (∀ f ∈ l, f ∈ cand) →
      ∀ x ∈ (scanRelations second l s).2.ready, x ∈ cand := by
  intro l
  induction l with
  | nil => intro s hs _; exact hs
  | cons f rest ih =>
      intro s hs hl
      by_cases hf : f ∈ s.visited
      · simpa [scanRelations, hf] using
          ih s hs (fun x hx => hl x (List.mem_cons_of_mem f hx))
      · by_cases hfs : f = second
        · subst hfs
          simpa [scanRelations, hf] using hs
        · have hready : ∀ x ∈ (moveToReady s f).ready, x ∈ cand := by
            intro x hx
            rcases List.mem_append.mp hx with hxe | hxf
            · exact hs x (List.mem_of_mem_erase hxe)
            · rw [List.mem_singleton.mp hxf]
              exact hl f (List.mem_cons_self f rest)
          simpa [scanRelations, hf, hfs] using
            ih (moveToReady s f) hready (fun x hx => hl x (List.mem_cons_of_mem f hx))

/-- With enough fuel the search loop's result no longer depends on the fuel:
every iteration moves a distinct candidate into the visited list, so once the
fuel plus the visited count covers the candidate population the loop can only
end by finding second or by exhausting the ready list. -/
theorem predLoop_fuel_extra (out : Nat → List Nat) (second : Nat) (cand : List Nat)
    (hout : ∀ a, ∀ f ∈ out a, f ∈ cand) :
    ∀ (fuel : Nat) (s : PredState),
      s.ready.Nodup → s.visited.Nodup → (∀ x ∈ s.visited, x ∉ s.ready) →
      (∀ x ∈ s.ready, x ∈ cand) → (∀ x ∈ s.visited, x ∈ cand) →
      cand.toFinset.card ≤ fuel + s.visited.length →
      ∀ extra, predLoop out second fuel s = predLoop out second (fuel + extra) s := by
  intro fuel
  induction fuel with
  | zero =>
      intro s hr hv hd hrc hvc hb extra
      have hvlen : s.visited.toFinset.card = s.visited.length :=
        List.toFinset_card_of_nodup hv
      have hsub : s.visited.toFinset ⊆ cand.toFinset := by
        intro x hx
        exact List.mem_toFinset.mpr (hvc x (List.mem_toFinset.mp hx))
      have heq : s.visited.toFinset = cand.toFinset :=
        Finset.eq_of_subset_of_card_le hsub (by omega)
      have hall : ∀ x ∈ cand, x ∈ s.visited := by
        intro x hx
        exact List.mem_toFinset.mp (heq ▸ List.mem_toFinset.mpr hx)
      have hnil : s.ready = [] := by
        cases hready : s.ready with
        | nil => rfl
        | cons x rest =>
            have hx : x ∈ s.ready := by rw [hready]; exact List.mem_cons_self x rest
            exact absurd hx (hd x (hall x (hrc x hx)))
      rw [predLoop_ready_nil out second s hnil, predLoop_ready_nil out second s hnil]
  | succ n ih =>
      intro s hr hv hd hrc hvc hb extra
      cases hready : s.ready with
      | nil =>
          rw [predLoop_ready_nil out second s hready, predLoop_ready_nil out second s hready]
      | cons e rest =>
          have harith : n + 1 + extra = (n + extra) + 1 := by omega
          rw [harith]
          have hyper : e ∈ s.ready := by rw [hready]; exact List.mem_cons_self e rest
          have hev : e ∉ s.visited := fun hmem => hd e hmem hyper
          have hr1 : (moveToVisited s e).ready.Nodup := hr.erase e
          have hv1 : (moveToVisited s e).visited.Nodup :=
            nodup_erase_append_singleton s.visited e hv
          have hd1 : ∀ x ∈ (moveToVisited s e).visited, x ∉ (moveToVisited s e).ready := by
            intro x hx
            simp only [moveToVisited, List.mem_append, List.mem_singleton] at hx
            rcases hx with hx | rfl
            · intro hmem
              exact hd x (List.mem_of_mem_erase hx) (List.mem_of_mem_erase hmem)
            · intro hmem
              exact ((hr.mem_erase_iff).mp hmem).1 rfl
          have hrc1 : ∀ x ∈ (moveToVisited s e).ready, x ∈ cand := by
            intro x hx
            exact hrc x (List.mem_of_mem_erase hx)
          have hvc1 : ∀ x ∈ (moveToVisited s e).visited, x ∈ cand := by
            intro x hx
            simp only [moveToVisited, List.mem_append, List.mem_singleton] at hx
            rcases hx with hx | hxe
            · exact hvc x (List.mem_of_mem_erase hx)
            · rw [hxe]
              exact hrc e hyper
          obtain ⟨hr2, hv2, hd2⟩ :=
            scanRelations_scratch_inv second (out e) (moveToVisited s e) hr1 hv1 hd1
          have hvis2 : (scanRelations second (out e) (moveToVisited s e)).2.visited
              = (moveToVisited s e).visited := scanRelations_visited_eq second (out e) _
          have hrc2 : ∀ x ∈ (scanRelations second (out e) (moveToVisited s e)).2.ready,
              x ∈ cand :=
            scanRelations_ready_subset second cand (out e) (moveToVisited s e) hrc1 (hout e)
          have hvc2 : ∀ x ∈ (scanRelations second (out e) (moveToVisited s e)).2.visited,
              x ∈ cand := by
            rw [hvis2]
            exact hvc1
          have hlen1 : (moveToVisited s e).visited.length = s.visited.length + 1 := by
            simp [moveToVisited, List.erase_of_not_mem hev]
          have hb2 : cand.toFinset.card
              ≤ n + (scanRelations second (out e) (moveToVisited s e)).2.visited.length := by
            rw [hvis2, hlen1]
            omega
          simp only [predLoop, hready]
          by_cases hfound : (scanRelations second (out e) (moveToVisited s e)).1
          · simp [hfound]
          · simp only [hfound, Bool.false_eq_true, if_false]
            exact ih _ hr2 hv2 hd2 hrc2 hvc2 hb2 extra

/-- The fuel bound predFuel used by the predecessor model is always
sufficient: giving the search loop any amount of extra fuel changes nothing,
so the model agrees with the unbounded C++ loop. -/
theorem predLoop_fuel_independent (g : GraphW) (first second extra : Nat) :
    predLoop (outOf g) second (predFuel g)
        (moveToReady (PredState.mk g.elementList [] [] []) first)
      = predLoop (outOf g) second (predFuel g + extra)
          (moveToReady (PredState.mk g.elementList [] [] []) first) := by
  have hout : ∀ a, ∀ f ∈ outOf g a, f ∈ first :: g.relations.map (fun r => r.2) := by
    intro a f hf
    simp only [outOf, List.mem_map, List.mem_filter] at hf
    obtain ⟨r, ⟨hr, _⟩, rfl⟩ := hf
    exact List.mem_cons_of_mem _ (List.mem_map.mpr ⟨r, hr, rfl⟩)
  refine predLoop_fuel_extra (outOf g) second (first :: g.relations.map (fun r => r.2)) hout
    (predFuel g) _ (by simp [moveToReady]) (by simp [moveToReady]) (by simp [moveToReady])
    ?_ (by simp [moveToReady]) ?_ extra
  · intro x hx
    have : x = first := by
      simpa [moveToReady] using hx
    rw [this]
    exact List.mem_cons_self _ _
  · have hcard : (first :: g.relations.map (fun r => r.2)).toFinset.card
        ≤ (first :: g.relations.map (fun r => r.2)).length := List.toFinset_card_le _
    have hvlen : (moveToReady (PredState.mk g.elementList [] [] []) first).visited.length = 0 := by
      simp [moveToReady]
    rw [hvlen]
    simp only [List.length_cons, List.length_map] at hcard
    show (first :: g.relations.map (fun r => r.2)).toFinset.card ≤ predFuel g + 0
    rw [predFuel]
    omega

end FuelSufficiency

end TerathonModel
